import Mathlib

/-!
Verification development for the k-ite chat front-end.

The repository's durable core is the session/message store consumed through a
useChat-style hook.  The UI components present in the sources
(src/unnamed/part_000 = App.tsx, src/components/ChatBubble.tsx,
src/components/LoginScreen.tsx with SettingsModal and ProfileEditModal)
are embedded directly; the store, generation controller and facade themselves
are not part of the sources, so they are modelled from the specification
(marked below), and the claims about them are settled against that model.

Conventions of the shallow embedding:
* JavaScript strings become Lean String, timestamps (Date / epoch millis)
  become Nat, opaque unique identifiers become Nat.
* Fallible facade operations return an Option FacadeError next to the new
  state; absence of an error is success.
* The asynchronous token stream is modelled by explicit events (tick,
  finish, fail) interleaved with the facade operations.
-/

namespace Kite

/-- Message sender enum, from types.ts (Sender.User / Sender.Assistant as used
by ChatBubble.tsx). -/
inductive Sender where
  | user
  | assistant
deriving DecidableEq, Repr

/-- Modelled from the spec: Message status — pending (being streamed),
complete, errored, stopped (§3 of the spec). -/
inductive MsgStatus where
  | pending
  | complete
  | errored
  | stopped
deriving DecidableEq, Repr

/-- Attachment record {mimeType, data, fileName?} as used by ChatBubble.tsx
(message.attachment). -/
structure Attachment where
  mimeType : String
  data : String
  fileName : Option String
deriving DecidableEq, Repr

/-- Message record: id, sender, text, optional attachment, timestamp, isError
(fields read by ChatBubble.tsx); status is modelled from the spec (§3).
Identifiers are opaque in the source and are modelled as Nat. -/
structure Message where
  id : Nat
  sender : Sender
  text : String
  attachment : Option Attachment
  timestamp : Nat
  isError : Bool
  status : MsgStatus
deriving DecidableEq, Repr

/-- Session record (ChatSession in types.ts): id, title, messages,
createdAt/updatedAt, model (§3 of the spec; title/updatedAt/id are the fields
read by App.tsx and SettingsModal). -/
structure Session where
  id : Nat
  title : String
  messages : List Message
  createdAt : Nat
  updatedAt : Nat
  model : String
deriving DecidableEq, Repr

/-! ## ChatBubble.tsx: handleSaveEdit

    const handleSaveEdit = () => {
        if (editedText.trim() !== message.text) {
            onEdit?.(message.id, editedText);
        }
        setIsEditing(false);
    };

The embedding returns the payload passed to onEdit (none when no edit is
dispatched) paired with the isEditing flag after the call. -/

/-- Embedding of handleSaveEdit from src/components/ChatBubble.tsx: dispatches
onEdit (message.id, editedText) exactly when the trimmed edited text differs
from the message text, and always leaves edit mode. -/
def handleSaveEdit (message : Message) (editedText : String) :
    Option (Nat × String) × Bool :=
  (if editedText.trim ≠ message.text then some (message.id, editedText) else none,
   false)

/-! ## App.tsx (src/unnamed/part_000): filteredSessions

  const filteredSessions = sessions.filter(session =>
    session.title.toLowerCase().includes(searchQuery.toLowerCase())
  );
-/

/-- Character-wise lowercase of a string, the embedding of
String.prototype.toLowerCase as used by App.tsx. -/
def lowerStr (s : String) : List Char :=
  s.data.map Char.toLower

/-- Embedding of the predicate session.title.toLowerCase().includes(query
.toLowerCase()): case-insensitive substring containment. -/
def titleMatches (q : String) (s : Session) : Bool :=
  decide (lowerStr q <:+: lowerStr s.title)

/-- Embedding of filteredSessions from src/unnamed/part_000 (App.tsx). -/
def filteredSessions (sessions : List Session) (q : String) : List Session :=
  sessions.filter (titleMatches q)

/-! ## The session store / generation controller / chat facade

The useChat hook itself is not among the source files (only its call sites
are), so the whole facade is modelled from the specification, §§4–5.  Where
the spec leaves a policy open (§5: mutating a session while a generation is
Streaming), the model picks cancel-then-proceed for the edit / regenerate /
delete / clear / new-chat mutations and refuse-with-Busy for sendMessage
(the latter is mandated explicitly by §4.5), applied uniformly. -/

/-- Error taxonomy of the facade (§7 of the spec): local precondition
violations that are reported without throwing. -/
inductive FacadeError where
  | busy
  | notFound
  | invalidState
deriving DecidableEq, Repr

/-- Modelled from the spec (§9): the facade context object
{currentSessionId, sessions, controllerState}, together with the model
selection and a counter from which fresh opaque identifiers are generated.
streaming = some (sid, mid) means the Generation Controller is Streaming
into message mid of session sid; none means Idle. -/
structure ChatState where
  sessions : List Session
  currentSessionId : Option Nat
  streaming : Option (Nat × Nat)
  currentModel : String
  nextId : Nat
deriving DecidableEq, Repr

/-- Initial facade state: no sessions, no current session, controller Idle. -/
def initState : ChatState :=
  { sessions := [], currentSessionId := none, streaming := none,
    currentModel := "gemini-3-flash-preview", nextId := 0 }

/-- Look a session up by id in the collection. -/
def findSession (ss : List Session) (sid : Nat) : Option Session :=
  ss.find? (fun s => s.id == sid)

/-- Apply f to the session with the given id, leaving the others alone. -/
def updSession (ss : List Session) (sid : Nat) (f : Session → Session) :
    List Session :=
  ss.map (fun s => if s.id = sid then f s else s)

/-- Apply f to the message with the given id inside a message log. -/
def updMsg (mid : Nat) (f : Message → Message) (ms : List Message) :
    List Message :=
  ms.map (fun m => if m.id = mid then f m else m)

/-- Apply f to message mid of session sid. -/
def setMsg (ss : List Session) (sid mid : Nat) (f : Message → Message) :
    List Session :=
  updSession ss sid (fun s => { s with messages := updMsg mid f s.messages })

/-- Modelled from the spec (§4.2): the default placeholder title of a fresh
session. -/
def defaultTitle : String := "New chat"

/-- Modelled from the spec (§4.2): title derivation from the first user
message — trim, truncate to a bounded length, ellipsis on truncation. -/
def deriveTitle (text : String) : String :=
  let t := text.trim
  if t.length ≤ 50 then t else t.take 50 ++ "..."

/-- A freshly appended User message (status implicitly complete, §4.5). -/
def mkUserMsg (id : Nat) (text : String) (att : Option Attachment) (t : Nat) :
    Message :=
  { id := id, sender := .user, text := text, attachment := att,
    timestamp := t, isError := false, status := .complete }

/-- The Assistant message created by the Generation Controller in pending
state before any token arrives (§3, §4.4). -/
def mkPendingMsg (id : Nat) (t : Nat) : Message :=
  { id := id, sender := .assistant, text := "", attachment := none,
    timestamp := t, isError := false, status := .pending }

/-- A fresh empty draft session (§4.2). -/
def mkSession (id : Nat) (t : Nat) (model : String) : Session :=
  { id := id, title := defaultTitle, messages := [], createdAt := t,
    updatedAt := t, model := model }

/-- Modelled from the spec (§4.4): Generation Controller start — creates a new
Assistant Message in pending status appended to the target session's log and
transitions to Streaming.  Callers establish Idle first (Busy guard or
cancellation). -/
def startGen (st : ChatState) (sid : Nat) (t : Nat) : ChatState :=
  { st with
    sessions := updSession st.sessions sid (fun s =>
      { s with messages := s.messages ++ [mkPendingMsg st.nextId t],
               updatedAt := t }),
    streaming := some (sid, st.nextId),
    nextId := st.nextId + 1 }

/-- Modelled from the spec (§4.4): stopGeneration — valid only in Streaming;
the pending message's status becomes stopped, isError stays untouched and the
accumulated partial text is kept; the controller returns to Idle. -/
def stopStep (st : ChatState) : Option FacadeError × ChatState :=
  match st.streaming with
  | none => (some .invalidState, st)
  | some (sid, mid) =>
    (none, { st with
      sessions := setMsg st.sessions sid mid (fun m => { m with status := .stopped }),
      streaming := none })

/-- Cancel-then-proceed helper (§5, design (b)): force the controller out of
Streaming before a mutation; the identity when already Idle. -/
def cancelIfStreaming (st : ChatState) : ChatState :=
  (stopStep st).2

/-- Modelled from the spec (§4.4): one increment of the lazy stream appends to
the pending message's text via updateText; a no-op when Idle. -/
def tickStep (st : ChatState) (chunk : String) : ChatState :=
  match st.streaming with
  | none => st
  | some (sid, mid) =>
    { st with
      sessions := setMsg st.sessions sid mid (fun m => { m with text := m.text ++ chunk }) }

/-- Modelled from the spec (§4.4): natural completion — the pending message's
status becomes complete and the controller returns to Idle. -/
def completeStep (st : ChatState) : ChatState :=
  match st.streaming with
  | none => st
  | some (sid, mid) =>
    { st with
      sessions := setMsg st.sessions sid mid (fun m => { m with status := .complete }),
      streaming := none }

/-- Modelled from the spec (§4.4): stream failure — the pending message's
status becomes errored, isError is set, the text is replaced with a
user-facing error message; the controller returns to Idle. -/
def errorStep (st : ChatState) (emsg : String) : ChatState :=
  match st.streaming with
  | none => st
  | some (sid, mid) =>
    { st with
      sessions := setMsg st.sessions sid mid (fun m =>
        { m with status := .errored, isError := true, text := emsg }),
      streaming := none }

/-- Modelled from the spec (§4.5): sendMessage — refused with Busy while
Streaming; otherwise creates a session implicitly when there is no (valid)
current one, appends a User message, derives the title on the first user
message, and starts generation. -/
def sendMessageStep (st : ChatState) (text : String) (att : Option Attachment)
    (t : Nat) : Option FacadeError × ChatState :=
  if st.streaming.isSome then (some .busy, st)
  else
    let existing := st.currentSessionId.bind (fun cid => findSession st.sessions cid)
    let stcid : ChatState × Nat :=
      match existing with
      | some s => (st, s.id)
      | none =>
        ({ st with
            sessions := st.sessions ++ [mkSession st.nextId t st.currentModel],
            currentSessionId := some st.nextId,
            nextId := st.nextId + 1 }, st.nextId)
    let st1 := stcid.1
    let cid := stcid.2
    let st2 := { st1 with
      sessions := updSession st1.sessions cid (fun s =>
        { s with
          messages := s.messages ++ [mkUserMsg st1.nextId text att t],
          title := if s.title = defaultTitle then deriveTitle text else s.title,
          updatedAt := t }),
      nextId := st1.nextId + 1 }
    (none, startGen st2 cid t)

/-- Keep every message up to and including the one with the given id
(truncateAfter of §4.3); the whole log when the id is absent — callers check
presence first. -/
def takeUpTo (mid : Nat) : List Message → List Message
  | [] => []
  | m :: ms => if m.id = mid then [m] else m :: takeUpTo mid ms

/-- Modelled from the spec (§4.5): editMessage — requires the target to be a
User message of the current session; cancels a running generation first
(§5, design (b)), then truncateAfter(id), updateText(id, newText) and a fresh
start from this point.  NotFound when the id is not in the current session,
InvalidState when the target is not a User message. -/
def editMessageStep (st : ChatState) (mid : Nat) (newText : String) (t : Nat) :
    Option FacadeError × ChatState :=
  let st0 := cancelIfStreaming st
  match st0.currentSessionId with
  | none => (some .notFound, st0)
  | some cid =>
    match findSession st0.sessions cid with
    | none => (some .notFound, st0)
    | some s =>
      match s.messages.find? (fun m => m.id == mid) with
      | none => (some .notFound, st0)
      | some m =>
        if m.sender = .user then
          let st1 := { st0 with
            sessions := updSession st0.sessions cid (fun s =>
              { s with
                messages := updMsg mid (fun m => { m with text := newText })
                  (takeUpTo mid s.messages),
                updatedAt := t }) }
          (none, startGen st1 cid t)
        else (some .invalidState, st0)

/-- Modelled from the spec (§4.5): regenerateResponse — requires the id to be
the trailing Assistant message of the current session; cancels a running
generation first (§5, design (b)), removes exactly that message and starts
again from the same preceding context.  InvalidState otherwise. -/
def regenerateStep (st : ChatState) (mid : Nat) (t : Nat) :
    Option FacadeError × ChatState :=
  let st0 := cancelIfStreaming st
  match st0.currentSessionId with
  | none => (some .notFound, st0)
  | some cid =>
    match findSession st0.sessions cid with
    | none => (some .notFound, st0)
    | some s =>
      match s.messages.getLast? with
      | none => (some .invalidState, st0)
      | some lastMsg =>
        if lastMsg.id = mid ∧ lastMsg.sender = .assistant then
          let st1 := { st0 with
            sessions := updSession st0.sessions cid (fun s =>
              { s with messages := s.messages.dropLast, updatedAt := t }) }
          (none, startGen st1 cid t)
        else (some .invalidState, st0)

/-- Modelled from the spec (§4.2): startNewChat — creates a new empty session
and makes it current (persisted immediately as a draft; §9 open question,
one policy picked).  A running generation is cancelled first. -/
def startNewChatStep (st : ChatState) (t : Nat) : ChatState :=
  let st0 := cancelIfStreaming st
  { st0 with
    sessions := st0.sessions ++ [mkSession st0.nextId t st0.currentModel],
    currentSessionId := some st0.nextId,
    nextId := st0.nextId + 1 }

/-- Modelled from the spec (§4.2): loadSession — sets the current session;
silently a no-op when the id is not found. -/
def loadSessionStep (st : ChatState) (sid : Nat) : ChatState :=
  if st.sessions.any (fun s => s.id == sid) then
    { st with currentSessionId := some sid }
  else st

/-- Modelled from the spec (§4.2): deleteSession — removes the session from
the collection; when it was current, falls back to no current session.  A
running generation is cancelled first (§5, design (b)). -/
def deleteSessionStep (st : ChatState) (sid : Nat) : ChatState :=
  let st0 := cancelIfStreaming st
  { st0 with
    sessions := st0.sessions.filter (fun s => s.id != sid),
    currentSessionId :=
      if st0.currentSessionId = some sid then none else st0.currentSessionId }

/-- Modelled from the spec (§4.2): clearAllSessions — empties the collection
and resets the current session; a running generation is cancelled first. -/
def clearAllStep (st : ChatState) : ChatState :=
  let st0 := cancelIfStreaming st
  { st0 with sessions := [], currentSessionId := none }

/-- Events of the closed system: the facade operations of §6 plus the three
events the backend stream can deliver (an increment, natural completion,
failure). -/
inductive Ev where
  | send (text : String) (att : Option Attachment) (t : Nat)
  | stop
  | regen (mid : Nat) (t : Nat)
  | edit (mid : Nat) (newText : String) (t : Nat)
  | newChat (t : Nat)
  | load (sid : Nat)
  | del (sid : Nat)
  | clearAll
  | tick (chunk : String)
  | finish
  | fail (emsg : String)

/-- One step of the closed system. -/
def step : Ev → ChatState → Option FacadeError × ChatState
  | .send text att t, st => sendMessageStep st text att t
  | .stop, st => stopStep st
  | .regen mid t, st => regenerateStep st mid t
  | .edit mid newText t, st => editMessageStep st mid newText t
  | .newChat t, st => (none, startNewChatStep st t)
  | .load sid, st => (none, loadSessionStep st sid)
  | .del sid, st => (none, deleteSessionStep st sid)
  | .clearAll, st => (none, clearAllStep st)
  | .tick c, st => (none, tickStep st c)
  | .finish, st => (none, completeStep st)
  | .fail e, st => (none, errorStep st e)

/-- The state after one step. -/
def stepState (e : Ev) (st : ChatState) : ChatState :=
  (step e st).2

/-- States reachable from the initial state by any sequence of facade
operations and stream events. -/
inductive Reachable : ChatState → Prop where
  | init : Reachable initState
  | next (e : Ev) {st : ChatState} : Reachable st → Reachable (stepState e st)

/-- Apply a list of stream increments in order. -/
def applyTicks (st : ChatState) (cs : List String) : ChatState :=
  cs.foldl tickStep st

/-- Concatenation of a list of increments, in order. -/
def joinAll : List String → String
  | [] => ""
  | c :: cs => c ++ joinAll cs

/-- The message a Streaming controller is writing into, when any. -/
def pendingMsg (st : ChatState) : Option Message :=
  match st.streaming with
  | none => none
  | some (sid, _) =>
    match findSession st.sessions sid with
    | none => none
    | some s => s.messages.getLast?

/-- Retrieve message mid of session sid. -/
def findMsg (st : ChatState) (sid mid : Nat) : Option Message :=
  match findSession st.sessions sid with
  | none => none
  | some s => s.messages.find? (fun m => m.id == mid)

/-- Concrete example state: one completed turn in a single session (send a
user message, let the generation finish with no increments). -/
def exChat : ChatState :=
  stepState .finish (stepState (.send "hi" none 0) initState)

/-- The single session of exChat. -/
def exSession : Session :=
  { id := 0, title := deriveTitle "hi",
    messages := [mkUserMsg 1 "hi" none 0,
      { mkPendingMsg 2 0 with status := .complete }],
    createdAt := 0, updatedAt := 0, model := "gemini-3-flash-preview" }

/-! ## Invariants of the model -/

/-- Strict user/assistant alternation: the log is a sequence of
(User, Assistant) turns.  Every reachable session log satisfies this. -/
inductive StrictAlt : List Message → Prop where
  | nil : StrictAlt []
  | pair (u a : Message) (rest : List Message) :
      u.sender = .user → a.sender = .assistant → StrictAlt rest →
      StrictAlt (u :: a :: rest)

/-- No message anywhere is pending. -/
def NoPending (ss : List Session) : Prop :=
  ∀ s ∈ ss, ∀ m ∈ s.messages, m.status ≠ .pending

/-- Exactly one pending message: the last message of session sid, an
assistant message with id mid, no error flag; and nothing else is pending. -/
def PendingAt (ss : List Session) (sid mid : Nat) : Prop :=
  (∃ s ∈ ss, s.id = sid ∧ ∃ pm, s.messages.getLast? = some pm ∧
    pm.id = mid ∧ pm.sender = .assistant ∧ pm.status = .pending ∧
    pm.isError = false)
  ∧ ∀ s ∈ ss, ∀ m ∈ s.messages, m.status = .pending → s.id = sid ∧ m.id = mid

/-- Coherence of the controller state with the message statuses. -/
def StreamOK (st : ChatState) : Prop :=
  match st.streaming with
  | none => NoPending st.sessions
  | some (sid, mid) => PendingAt st.sessions sid mid

/-- Identifier discipline: session ids are distinct and below the counter;
each session's message ids are distinct and below the counter. -/
def IdsOK (st : ChatState) : Prop :=
  (st.sessions.map Session.id).Nodup
  ∧ ∀ s ∈ st.sessions, s.id < st.nextId
      ∧ (s.messages.map Message.id).Nodup
      ∧ ∀ m ∈ s.messages, m.id < st.nextId

/-- Every session's log alternates strictly. -/
def AltOK (st : ChatState) : Prop :=
  ∀ s ∈ st.sessions, StrictAlt s.messages

/-- The inductive invariant of the model. -/
def Inv (st : ChatState) : Prop :=
  IdsOK st ∧ AltOK st ∧ StreamOK st

/-- At most one message across the entire session collection is pending:
any two pending messages are the same message of the same session. -/
def AtMostOnePending (st : ChatState) : Prop :=
  ∀ s1, s1 ∈ st.sessions → ∀ s2, s2 ∈ st.sessions →
  ∀ m1, m1 ∈ s1.messages → ∀ m2, m2 ∈ s2.messages →
  m1.status = .pending → m2.status = .pending → s1 = s2 ∧ m1 = m2

/-- No two consecutive messages are both assistant messages. -/
def NoConsecAssistant : List Message → Prop
  | [] => True
  | [_] => True
  | a :: b :: rest =>
    ¬(a.sender = .assistant ∧ b.sender = .assistant) ∧ NoConsecAssistant (b :: rest)

/-- The log does not start with an assistant message. -/
def HeadNotAssistant (l : List Message) : Prop :=
  ∀ m, l.head? = some m → m.sender ≠ .assistant

/-! ## Storage Adapter

Modelled from the spec (§4.1, §6): durable key/value persistence scoped per
user identity; sessions[userKey] maps to a serialized sequence of Session;
absent or malformed data reads back as the empty sequence, without throwing.
The serializer below is a concrete executable wire format (escaped,
bar-separated fields; decimal numbers little-endian by digit) standing in for
JSON.stringify / JSON.parse of the browser runtime. -/

/-- Escape a raw character sequence so that a bar can delimit fields: a
backslash protects a following bar or backslash. -/
def escChars : List Char → List Char
  | [] => []
  | c :: cs =>
    if c = '|' ∨ c = '\\' then '\\' :: c :: escChars cs else c :: escChars cs

/-- Concatenate escaped fields, each terminated by a bar. -/
def encodeFields : List (List Char) → List Char
  | [] => []
  | f :: rest => escChars f ++ '|' :: encodeFields rest

/-- Read one escaped, bar-terminated field; returns the field and the rest. -/
def decodeField : List Char → Option (List Char × List Char)
  | [] => none
  | c :: cs =>
    if c = '\\' then
      match cs with
      | [] => none
      | d :: ds => (decodeField ds).map (fun p => (d :: p.1, p.2))
    else if c = '|' then some ([], cs)
    else (decodeField cs).map (fun p => (c :: p.1, p.2))

/-- Read fields until the input is exhausted; the fuel bounds recursion. -/
def decodeFieldsAux : Nat → List Char → Option (List (List Char))
  | _, [] => some []
  | 0, _ :: _ => none
  | fuel + 1, c :: cs =>
    match decodeField (c :: cs) with
    | none => none
    | some (f, rest) =>
      match decodeFieldsAux fuel rest with
      | none => none
      | some fs => some (f :: fs)

/-- Split an encoded field sequence back into its fields. -/
def decodeFields (l : List Char) : Option (List (List Char)) :=
  decodeFieldsAux l.length l

/-- The character of a decimal digit. -/
def digitChar (d : Nat) : Char := Char.ofNat (48 + d)

/-- The value of a decimal digit character. -/
def charDigitVal (c : Char) : Nat := c.toNat - 48

/-- Decimal digit test. -/
def isDigitChar (c : Char) : Bool := 48 ≤ c.toNat && c.toNat ≤ 57

/-- Encode a number as decimal digit characters, least significant first. -/
def encodeNat (n : Nat) : List Char := (Nat.digits 10 n).map digitChar

/-- Decode decimal digit characters, least significant first. -/
def decodeNat (l : List Char) : Option Nat :=
  if l.all isDigitChar then some (Nat.ofDigits 10 (l.map charDigitVal)) else none

/-- Encode a boolean flag. -/
def encodeBool (b : Bool) : List Char := if b then ['1'] else ['0']

/-- Decode a boolean flag. -/
def decodeBool : List Char → Option Bool
  | ['1'] => some true
  | ['0'] => some false
  | _ => none

/-- Encode a sender tag. -/
def encodeSender : Sender → List Char
  | .user => ['u']
  | .assistant => ['a']

/-- Decode a sender tag. -/
def decodeSender : List Char → Option Sender
  | ['u'] => some .user
  | ['a'] => some .assistant
  | _ => none

/-- Encode a message status tag. -/
def encodeStatus : MsgStatus → List Char
  | .pending => ['p']
  | .complete => ['c']
  | .errored => ['e']
  | .stopped => ['s']

/-- Decode a message status tag. -/
def decodeStatus : List Char → Option MsgStatus
  | ['p'] => some .pending
  | ['c'] => some .complete
  | ['e'] => some .errored
  | ['s'] => some .stopped
  | _ => none

/-- Decode a list of encoded items, failing when any item fails. -/
def decodeList {α β : Type} (dec : β → Option α) : List β → Option (List α)
  | [] => some []
  | b :: bs =>
    match dec b with
    | none => none
    | some a =>
      match decodeList dec bs with
      | none => none
      | some rest => some (a :: rest)

/-- Encode an optional file name. -/
def encodeOptStr : Option String → List Char
  | none => encodeFields [['0']]
  | some s => encodeFields [['1'], s.data]

/-- Decode an optional file name. -/
def decodeOptStr (l : List Char) : Option (Option String) :=
  match decodeFields l with
  | some [['0']] => some none
  | some [['1'], cs] => some (some (String.mk cs))
  | _ => none

/-- Encode an attachment {mimeType, data, fileName?}. -/
def encodeAttachment (a : Attachment) : List Char :=
  encodeFields [a.mimeType.data, a.data.data, encodeOptStr a.fileName]

/-- Decode an attachment. -/
def decodeAttachment (l : List Char) : Option Attachment :=
  match decodeFields l with
  | some [f1, f2, f3] =>
    match decodeOptStr f3 with
    | some fn => some { mimeType := String.mk f1, data := String.mk f2, fileName := fn }
    | none => none
  | _ => none

/-- Encode an optional attachment. -/
def encodeOptAttachment : Option Attachment → List Char
  | none => encodeFields [['0']]
  | some a => encodeFields [['1'], encodeAttachment a]

/-- Decode an optional attachment. -/
def decodeOptAttachment (l : List Char) : Option (Option Attachment) :=
  match decodeFields l with
  | some [['0']] => some none
  | some [['1'], cs] =>
    match decodeAttachment cs with
    | some a => some (some a)
    | none => none
  | _ => none

/-- Encode one message. -/
def encodeMessage (m : Message) : List Char :=
  encodeFields [encodeNat m.id, encodeSender m.sender, m.text.data,
    encodeOptAttachment m.attachment, encodeNat m.timestamp,
    encodeBool m.isError, encodeStatus m.status]

/-- Decode one message. -/
def decodeMessage (l : List Char) : Option Message :=
  match decodeFields l with
  | some [f1, f2, f3, f4, f5, f6, f7] =>
    match decodeNat f1, decodeSender f2, decodeOptAttachment f4,
        decodeNat f5, decodeBool f6, decodeStatus f7 with
    | some id, some sender, some att, some ts, some err, some status =>
      some { id := id, sender := sender, text := String.mk f3, attachment := att,
             timestamp := ts, isError := err, status := status }
    | _, _, _, _, _, _ => none
  | _ => none

/-- Encode one session. -/
def encodeSession (s : Session) : List Char :=
  encodeFields [encodeNat s.id, s.title.data,
    encodeFields (s.messages.map encodeMessage),
    encodeNat s.createdAt, encodeNat s.updatedAt, s.model.data]

/-- Decode an encoded message log. -/
def decodeMessages (l : List Char) : Option (List Message) :=
  match decodeFields l with
  | none => none
  | some fs => decodeList decodeMessage fs

/-- Decode one session. -/
def decodeSession (l : List Char) : Option Session :=
  match decodeFields l with
  | some [f1, f2, f3, f4, f5, f6] =>
    match decodeNat f1, decodeMessages f3, decodeNat f4, decodeNat f5 with
    | some id, some msgs, some ca, some ua =>
      some { id := id, title := String.mk f2, messages := msgs,
             createdAt := ca, updatedAt := ua, model := String.mk f6 }
    | _, _, _, _ => none
  | _ => none

/-- Serialize a session collection for storage. -/
def encodeSessions (l : List Session) : String :=
  String.mk (encodeFields (l.map encodeSession))

/-- Parse a stored session collection; none on malformed data. -/
def decodeSessions (s : String) : Option (List Session) :=
  match decodeFields s.data with
  | none => none
  | some fs => decodeList decodeSession fs

/-- The key/value store underlying the Storage Adapter (localStorage). -/
def Storage : Type := String → Option String

/-- Modelled from the spec (§4.1): save(userKey, sessions) writes the
serialized collection under the user's key. -/
def saveSessions (key : String) (sessions : List Session) (store : Storage) :
    Storage :=
  fun k => if k = key then some (encodeSessions sessions) else store k

/-- Modelled from the spec (§4.1): load(userKey) — fails soft: corrupt or
missing data yields the empty sequence, never an exception. -/
def loadSessions (key : String) (store : Storage) : List Session :=
  match store key with
  | none => []
  | some raw => (decodeSessions raw).getD []

end Kite

namespace Kite

/-! ## Lemmas: wire-format roundtrip -/

theorem mk_data (s : String) : String.mk s.data = s := rfl

theorem data_mk (cs : List Char) : (String.mk cs).data = cs := rfl

theorem decodeField_bar (rest : List Char) :
    decodeField ('|' :: rest) = some ([], rest) := by
  cases rest <;> simp [decodeField]

theorem decodeField_escaped (d : Char) (rest : List Char) :
    decodeField ('\\' :: d :: rest)
      = (decodeField rest).map (fun p => (d :: p.1, p.2)) := by
  simp [decodeField]

theorem decodeField_plain (c : Char) (rest : List Char)
    (h1 : c ≠ '\\') (h2 : c ≠ '|') :
    decodeField (c :: rest)
      = (decodeField rest).map (fun p => (c :: p.1, p.2)) := by
  cases rest <;> simp [decodeField, h1, h2]

theorem decodeField_esc (f : List Char) (rest : List Char) :
    decodeField (escChars f ++ '|' :: rest) = some (f, rest) := by
  induction f with
  | nil => simpa using decodeField_bar rest
  | cons c cs ih =>
    by_cases h : c = '|' ∨ c = '\\'
    · simp only [escChars, if_pos h, List.cons_append]
      rw [decodeField_escaped, ih]
      rfl
    · simp only [escChars, if_neg h, List.cons_append]
      push_neg at h
      rw [decodeField_plain c _ h.2 h.1, ih]
      rfl

theorem encodeFields_cons (f : List Char) (rest : List (List Char)) :
    encodeFields (f :: rest) = escChars f ++ '|' :: encodeFields rest := rfl

theorem decodeFieldsAux_encode :
    ∀ fs fuel, (encodeFields fs).length ≤ fuel →
    decodeFieldsAux fuel (encodeFields fs) = some fs := by
  intro fs
  induction fs with
  | nil =>
    intro fuel h
    cases fuel <;> simp [encodeFields, decodeFieldsAux]
  | cons f rest ih =>
    intro fuel h
    rw [encodeFields_cons] at h ⊢
    cases hx : escChars f ++ '|' :: encodeFields rest with
    | nil => exact absurd hx (by cases escChars f <;> simp)
    | cons c cs =>
      cases fuel with
      | zero => simp at h
      | succ fuel =>
        have hdf : decodeField (c :: cs) = some (f, encodeFields rest) := by
          rw [← hx]; exact decodeField_esc f (encodeFields rest)
        have hlen : (encodeFields rest).length ≤ fuel := by
          have hlx := congrArg List.length hx
          simp [List.length_append] at hlx h
          omega
        simp only [decodeFieldsAux, hdf, ih fuel hlen]

theorem decodeFields_encode (fs : List (List Char)) :
    decodeFields (encodeFields fs) = some fs :=
  decodeFieldsAux_encode fs _ le_rfl

theorem decodeList_encode {α β : Type} (enc : α → β) (dec : β → Option α)
    (l : List α) (h : ∀ x ∈ l, dec (enc x) = some x) :
    decodeList dec (l.map enc) = some l := by
  induction l with
  | nil => rfl
  | cons a l ih =>
    simp only [List.map_cons, decodeList, h a (by simp),
      ih (fun x hx => h x (by simp [hx]))]

theorem charDigitVal_digitChar {d : Nat} (h : d < 10) :
    charDigitVal (digitChar d) = d := by
  interval_cases d <;> decide

theorem isDigitChar_digitChar {d : Nat} (h : d < 10) :
    isDigitChar (digitChar d) = true := by
  interval_cases d <;> decide

theorem decodeNat_encodeNat (n : Nat) : decodeNat (encodeNat n) = some n := by
  have hd : ∀ d ∈ Nat.digits 10 n, d < 10 :=
    fun d hmem => Nat.digits_lt_base (by norm_num) hmem
  unfold decodeNat encodeNat
  rw [if_pos]
  · congr 1
    rw [List.map_map]
    have hmap : (Nat.digits 10 n).map (charDigitVal ∘ digitChar) = Nat.digits 10 n := by
      have : (Nat.digits 10 n).map (charDigitVal ∘ digitChar)
          = (Nat.digits 10 n).map id :=
        List.map_congr_left (fun d hmem => charDigitVal_digitChar (hd d hmem))
      simpa using this
    rw [hmap, Nat.ofDigits_digits]
  · rw [List.all_eq_true]
    intro c hc
    obtain ⟨d, hdm, rfl⟩ := List.mem_map.mp hc
    exact isDigitChar_digitChar (hd d hdm)

theorem decodeBool_encodeBool (b : Bool) : decodeBool (encodeBool b) = some b := by
  cases b <;> rfl

theorem decodeSender_encodeSender (s : Sender) :
    decodeSender (encodeSender s) = some s := by
  cases s <;> rfl

theorem decodeStatus_encodeStatus (s : MsgStatus) :
    decodeStatus (encodeStatus s) = some s := by
  cases s <;> rfl

theorem decodeOptStr_encodeOptStr (o : Option String) :
    decodeOptStr (encodeOptStr o) = some o := by
  cases o with
  | none => rfl
  | some s =>
    simp only [decodeOptStr, encodeOptStr, decodeFields_encode]

theorem decodeAttachment_encodeAttachment (a : Attachment) :
    decodeAttachment (encodeAttachment a) = some a := by
  simp only [decodeAttachment, encodeAttachment, decodeFields_encode,
    decodeOptStr_encodeOptStr]

theorem decodeOptAttachment_encodeOptAttachment (o : Option Attachment) :
    decodeOptAttachment (encodeOptAttachment o) = some o := by
  cases o with
  | none => rfl
  | some a =>
    simp only [decodeOptAttachment, encodeOptAttachment, decodeFields_encode,
      decodeAttachment_encodeAttachment]

theorem decodeMessage_encodeMessage (m : Message) :
    decodeMessage (encodeMessage m) = some m := by
  simp only [decodeMessage, encodeMessage, decodeFields_encode,
    decodeNat_encodeNat, decodeSender_encodeSender,
    decodeOptAttachment_encodeOptAttachment, decodeBool_encodeBool,
    decodeStatus_encodeStatus]

theorem decodeMessages_encode (ms : List Message) :
    decodeMessages (encodeFields (ms.map encodeMessage)) = some ms := by
  simp only [decodeMessages, decodeFields_encode,
    decodeList_encode encodeMessage decodeMessage ms
      (fun m _ => decodeMessage_encodeMessage m)]

theorem decodeSession_encodeSession (s : Session) :
    decodeSession (encodeSession s) = some s := by
  simp only [decodeSession, encodeSession, decodeFields_encode,
    decodeNat_encodeNat, decodeMessages_encode, mk_data]

theorem decodeSessions_encodeSessions (l : List Session) :
    decodeSessions (encodeSessions l) = some l := by
  simp only [decodeSessions, encodeSessions, data_mk, decodeFields_encode,
    decodeList_encode encodeSession decodeSession l
      (fun s _ => decodeSession_encodeSession s)]

/-! ## Lemmas: the session store model -/

theorem mem_updSession {ss : List Session} {sid : Nat} {f : Session → Session}
    {a : Session} (h : a ∈ updSession ss sid f) :
    ∃ s ∈ ss, a = if s.id = sid then f s else s := by
  obtain ⟨s, hs, he⟩ := List.mem_map.mp h
  exact ⟨s, hs, he.symm⟩

theorem map_id_updSession {f : Session → Session}
    (hf : ∀ s, (f s).id = s.id) (ss : List Session) (sid : Nat) :
    (updSession ss sid f).map Session.id = ss.map Session.id := by
  unfold updSession
  rw [List.map_map]
  refine List.map_congr_left (fun s _ => ?_)
  by_cases h : s.id = sid <;> simp [h, hf]

theorem findSession_eq_some {ss : List Session} {sid : Nat} {c : Session}
    (h : findSession ss sid = some c) : c ∈ ss ∧ c.id = sid := by
  refine ⟨List.mem_of_find?_eq_some h, ?_⟩
  have h2 := List.find?_some h
  simpa using h2

theorem findSession_of_mem {ss : List Session}
    (hnd : (ss.map Session.id).Nodup) {s : Session} (hs : s ∈ ss) :
    findSession ss s.id = some s := by
  induction ss with
  | nil => cases hs
  | cons a ss ih =>
    rw [List.map_cons, List.nodup_cons] at hnd
    unfold findSession at ih ⊢
    cases hs with
    | head => simp [List.find?_cons]
    | tail _ hmem =>
      have hne : (a.id == s.id) = false := by
        simp only [beq_eq_false_iff_ne, ne_eq]
        intro he
        exact hnd.1 (he ▸ List.mem_map_of_mem Session.id hmem)
      simp only [List.find?_cons, hne]
      exact ih hnd.2 hmem

theorem findSession_updSession {f : Session → Session}
    (hf : ∀ s, (f s).id = s.id) (ss : List Session) (sid tid : Nat) :
    findSession (updSession ss sid f) tid
      = (findSession ss tid).map (fun s => if s.id = sid then f s else s) := by
  induction ss with
  | nil => rfl
  | cons s ss ih =>
    have hid : (if s.id = sid then f s else s).id = s.id := by
      by_cases h2 : s.id = sid <;> simp [h2, hf]
    unfold updSession at ih ⊢
    unfold findSession at ih ⊢
    simp only [List.map_cons]
    by_cases h : s.id = tid
    · have h1 : ((if s.id = sid then f s else s).id == tid) = true := by
        rw [hid]; simp [h]
      have h2 : (s.id == tid) = true := by simp [h]
      simp only [List.find?_cons, h1, h2]
      rfl
    · have h1 : ((if s.id = sid then f s else s).id == tid) = false := by
        rw [hid]; simp [h]
      have h2 : (s.id == tid) = false := by simp [h]
      simp only [List.find?_cons, h1, h2]
      exact ih

theorem findSession_append (ss : List Session) (s0 : Session) :
    findSession (ss ++ [s0]) s0.id
      = match findSession ss s0.id with
        | some c => some c
        | none => some s0 := by
  unfold findSession
  rw [List.find?_append]
  cases hf : List.find? (fun s => s.id == s0.id) ss with
  | some c => rfl
  | none =>
    simp only [Option.none_or]
    simp [List.find?_cons]

theorem updMsg_eq_of_not_mem {mid : Nat} {f : Message → Message}
    {ms : List Message} (h : mid ∉ ms.map Message.id) :
    updMsg mid f ms = ms := by
  unfold updMsg
  conv_rhs => rw [← List.map_id ms]
  refine List.map_congr_left (fun m hm => ?_)
  have : m.id ≠ mid := fun he => h (he ▸ List.mem_map_of_mem Message.id hm)
  simp [this]

theorem updMsg_append_last {mid : Nat} {f : Message → Message}
    (init : List Message) (pm : Message) (hpm : pm.id = mid)
    (hnd : mid ∉ init.map Message.id) :
    updMsg mid f (init ++ [pm]) = init ++ [f pm] := by
  unfold updMsg
  rw [List.map_append]
  congr 1
  · exact updMsg_eq_of_not_mem hnd
  · simp [hpm]

theorem find?_id_last (init : List Message) (pm : Message) (mid : Nat)
    (hid : pm.id = mid) (hnot : mid ∉ init.map Message.id) :
    (init ++ [pm]).find? (fun m => m.id == mid) = some pm := by
  induction init with
  | nil => exact List.find?_cons_of_pos _ (by simp [hid])
  | cons a init ih =>
    rw [List.map_cons] at hnot
    simp only [List.mem_cons, not_or] at hnot
    rw [List.cons_append, List.find?_cons_of_neg _ (by simp [Ne.symm hnot.1])]
    exact ih hnot.2

/-! ## Lemmas: strict alternation -/

theorem StrictAlt.append_pair {l : List Message} (h : StrictAlt l)
    (u a : Message) (hu : u.sender = .user) (ha : a.sender = .assistant) :
    StrictAlt (l ++ [u, a]) := by
  induction h with
  | nil => exact .pair u a [] hu ha .nil
  | pair u0 a0 rest hu0 ha0 _ ih =>
    exact .pair u0 a0 (rest ++ [u, a]) hu0 ha0 ih

theorem StrictAlt.map {g : Message → Message}
    (hg : ∀ m, (g m).sender = m.sender) {l : List Message} (h : StrictAlt l) :
    StrictAlt (l.map g) := by
  induction h with
  | nil => exact .nil
  | pair u a rest hu ha _ ih =>
    exact .pair (g u) (g a) (rest.map g) (by rw [hg]; exact hu)
      (by rw [hg]; exact ha) ih

theorem StrictAlt.last_pair {l : List Message} (h : StrictAlt l) (hne : l ≠ []) :
    ∃ x u a, l = x ++ [u, a] ∧ StrictAlt x
      ∧ u.sender = .user ∧ a.sender = .assistant := by
  induction h with
  | nil => exact absurd rfl hne
  | pair u0 a0 rest hu0 ha0 hrest ih =>
    cases hr : rest with
    | nil =>
      exact ⟨[], u0, a0, by simp [hr], .nil, hu0, ha0⟩
    | cons b bs =>
      obtain ⟨x, u, a, hra, hx, hu, ha⟩ := ih (by simp [hr])
      exact ⟨u0 :: a0 :: x, u, a,
        by rw [List.cons_append, List.cons_append, ← hr, hra],
        .pair u0 a0 x hu0 ha0 hx, hu, ha⟩

theorem StrictAlt.of_append_user {L : List Message} (h : StrictAlt L) :
    ∀ xs ys u, L = xs ++ u :: ys → u.sender = .user → StrictAlt xs := by
  induction h with
  | nil =>
    intro xs ys u hL _
    cases xs <;> simp at hL
  | pair a b rest ha hb hrest ih =>
    intro xs ys u hL hu
    cases xs with
    | nil => exact .nil
    | cons x xs1 =>
      cases xs1 with
      | nil =>
        simp only [List.cons_append, List.nil_append] at hL
        injection hL with h1 h2
        injection h2 with h3 _
        rw [← h3] at hu
        rw [hu] at hb
        simp at hb
      | cons y xs2 =>
        simp only [List.cons_append] at hL
        injection hL with h1 h2
        injection h2 with h3 h4
        subst h1
        subst h3
        exact .pair a b xs2 ha hb (ih xs2 ys u h4 hu)

theorem mem_updMsg {ms : List Message} {mid : Nat} {f : Message → Message}
    {a : Message} (h : a ∈ updMsg mid f ms) :
    ∃ m ∈ ms, a = if m.id = mid then f m else m := by
  obtain ⟨m, hm, he⟩ := List.mem_map.mp h
  exact ⟨m, hm, he.symm⟩

theorem map_id_updMsg {f : Message → Message} (hf : ∀ m, (f m).id = m.id)
    (ms : List Message) (mid : Nat) :
    (updMsg mid f ms).map Message.id = ms.map Message.id := by
  unfold updMsg
  rw [List.map_map]
  refine List.map_congr_left (fun m _ => ?_)
  by_cases h : m.id = mid <;> simp [h, hf]

theorem nodup_ids_updSession (f : Session → Session)
    (hf : ∀ s, (f s).id = s.id) {ss : List Session} {sid : Nat}
    (h : (ss.map Session.id).Nodup) :
    ((updSession ss sid f).map Session.id).Nodup := by
  rw [map_id_updSession hf]
  exact h

theorem nodup_ids_updMsg (f : Message → Message)
    (hf : ∀ m, (f m).id = m.id) {ms : List Message} {mid : Nat}
    (h : (ms.map Message.id).Nodup) :
    ((updMsg mid f ms).map Message.id).Nodup := by
  rw [map_id_updMsg hf]
  exact h

theorem StrictAlt.updMsg {f : Message → Message}
    (hf : ∀ m, (f m).sender = m.sender) {ms : List Message} (h : StrictAlt ms)
    (mid : Nat) : StrictAlt (Kite.updMsg mid f ms) :=
  h.map (g := fun m => if m.id = mid then f m else m)
    (fun m => by by_cases hc : m.id = mid <;> simp [hc, hf])

theorem StreamOK_some {st : ChatState} {sid mid : Nat} (h : StreamOK st)
    (hs : st.streaming = some (sid, mid)) : PendingAt st.sessions sid mid := by
  unfold StreamOK at h
  rw [hs] at h
  exact h

theorem StreamOK_none {st : ChatState} (h : StreamOK st)
    (hs : st.streaming = none) : NoPending st.sessions := by
  unfold StreamOK at h
  rw [hs] at h
  exact h

theorem StreamOK_of_pending {st : ChatState} {sid mid : Nat}
    (hs : st.streaming = some (sid, mid)) (h : PendingAt st.sessions sid mid) :
    StreamOK st := by
  unfold StreamOK
  rw [hs]
  exact h

theorem StreamOK_of_none {st : ChatState} (hs : st.streaming = none)
    (h : NoPending st.sessions) : StreamOK st := by
  unfold StreamOK
  rw [hs]
  exact h

/-- From the invariant, the Streaming target decomposes: the session exists,
its log ends in the pending assistant message, and the pending id occurs
nowhere earlier in that log. -/
theorem pending_shape {st : ChatState} {sid mid : Nat}
    (hinv : Inv st) (hs : st.streaming = some (sid, mid)) :
    ∃ c init pm, findSession st.sessions sid = some c
      ∧ c.messages = init ++ [pm]
      ∧ pm.id = mid ∧ pm.sender = .assistant ∧ pm.status = .pending
      ∧ pm.isError = false
      ∧ mid ∉ init.map Message.id := by
  obtain ⟨⟨hnd, hbound⟩, _, hstream⟩ := hinv
  obtain ⟨⟨s0, hmem, hsid, pm, hlast, hpmid, hpsender, hpstatus, hperr⟩, _⟩ :=
    StreamOK_some hstream hs
  obtain ⟨init, hinit⟩ := List.getLast?_eq_some_iff.mp hlast
  have hfind : findSession st.sessions sid = some s0 :=
    hsid ▸ findSession_of_mem hnd hmem
  have hmn : (s0.messages.map Message.id).Nodup := (hbound s0 hmem).2.1
  have hnotin : mid ∉ init.map Message.id := by
    rw [hinit, List.map_append, List.nodup_append] at hmn
    intro hmem2
    exact hmn.2.2 hmem2 (by simp [hpmid])
  exact ⟨s0, init, pm, hfind, hinit, hpmid, hpsender, hpstatus, hperr, hnotin⟩

/-- Finalizing the pending message (stop / complete / error) with any
id/sender-preserving, status-clearing update preserves the invariant. -/
theorem Inv_finalize {st : ChatState} {sid mid : Nat} {f : Message → Message}
    (hid : ∀ m, (f m).id = m.id) (hsender : ∀ m, (f m).sender = m.sender)
    (hstatus : ∀ m, (f m).status ≠ .pending)
    (hinv : Inv st) (hs : st.streaming = some (sid, mid)) :
    Inv { st with sessions := setMsg st.sessions sid mid f, streaming := none } := by
  obtain ⟨⟨hnd, hbound⟩, halt, hstream⟩ := hinv
  obtain ⟨_, huniq⟩ := StreamOK_some hstream hs
  refine ⟨⟨?_, ?_⟩, ?_, StreamOK_of_none rfl ?_⟩
  · show ((updSession st.sessions sid
      (fun s => { s with messages := updMsg mid f s.messages })).map Session.id).Nodup
    apply nodup_ids_updSession
    · exact fun s => rfl
    · exact hnd
  · intro s' hs'
    obtain ⟨s, hsmem, he⟩ := mem_updSession hs'
    have hb := hbound s hsmem
    by_cases hcase : s.id = sid
    · rw [if_pos hcase] at he
      subst he
      refine ⟨hb.1, nodup_ids_updMsg _ hid hb.2.1, ?_⟩
      intro m' hm'
      obtain ⟨m, hmmem, hme⟩ := mem_updMsg hm'
      have := hb.2.2 m hmmem
      by_cases hmc : m.id = mid <;> simp [hmc, hid] at hme <;>
        rw [hme] <;> simp [hid, this]
    · rw [if_neg hcase] at he
      subst he
      exact hb
  · intro s' hs'
    obtain ⟨s, hsmem, he⟩ := mem_updSession hs'
    have ha := halt s hsmem
    by_cases hcase : s.id = sid
    · rw [if_pos hcase] at he
      subst he
      exact ha.updMsg hsender mid
    · rw [if_neg hcase] at he
      subst he
      exact ha
  · intro s' hs' m' hm' hpend
    obtain ⟨s, hsmem, he⟩ := mem_updSession hs'
    by_cases hcase : s.id = sid
    · rw [if_pos hcase] at he
      subst he
      obtain ⟨m, hmmem, hme⟩ := mem_updMsg hm'
      by_cases hmc : m.id = mid
      · rw [if_pos hmc] at hme
        rw [hme] at hpend
        exact hstatus m hpend
      · rw [if_neg hmc] at hme
        rw [hme] at hpend
        exact hmc (huniq s hsmem m hmmem hpend).2
    · rw [if_neg hcase] at he
      rw [he] at hm'
      exact hcase (huniq s hsmem m' hm' hpend).1

/-- A stream increment (text-only update of the pending message) preserves
the invariant with the controller still Streaming. -/
theorem Inv_tick_gen {st : ChatState} {sid mid : Nat} {f : Message → Message}
    (hid : ∀ m, (f m).id = m.id) (hsender : ∀ m, (f m).sender = m.sender)
    (hstatus : ∀ m, (f m).status = m.status)
    (herr : ∀ m, (f m).isError = m.isError)
    (hinv : Inv st) (hs : st.streaming = some (sid, mid)) :
    Inv { st with sessions := setMsg st.sessions sid mid f } := by
  obtain ⟨⟨hnd, hbound⟩, halt, hstream⟩ := hinv
  obtain ⟨⟨s0, hmem, hsid, pm, hlast, hpmid, hpsender, hpstatus, hperr⟩, huniq⟩ :=
    StreamOK_some hstream hs
  have hs2 : ({ st with sessions := setMsg st.sessions sid mid f } : ChatState).streaming
      = some (sid, mid) := hs
  refine ⟨⟨?_, ?_⟩, ?_, StreamOK_of_pending hs2 ⟨?_, ?_⟩⟩
  · show ((updSession st.sessions sid
      (fun s => { s with messages := updMsg mid f s.messages })).map Session.id).Nodup
    apply nodup_ids_updSession
    · exact fun s => rfl
    · exact hnd
  · intro s' hs'
    obtain ⟨s, hsmem, he⟩ := mem_updSession hs'
    have hb := hbound s hsmem
    by_cases hcase : s.id = sid
    · rw [if_pos hcase] at he
      subst he
      refine ⟨hb.1, nodup_ids_updMsg _ hid hb.2.1, ?_⟩
      intro m' hm'
      obtain ⟨m, hmmem, hme⟩ := mem_updMsg hm'
      have := hb.2.2 m hmmem
      by_cases hmc : m.id = mid <;> simp [hmc, hid] at hme <;>
        rw [hme] <;> simp [hid, this]
    · rw [if_neg hcase] at he
      subst he
      exact hb
  · intro s' hs'
    obtain ⟨s, hsmem, he⟩ := mem_updSession hs'
    have ha := halt s hsmem
    by_cases hcase : s.id = sid
    · rw [if_pos hcase] at he
      subst he
      exact ha.updMsg hsender mid
    · rw [if_neg hcase] at he
      subst he
      exact ha
  · have hmem2 : { s0 with messages := updMsg mid f s0.messages }
        ∈ updSession st.sessions sid
          (fun s => { s with messages := updMsg mid f s.messages }) := by
      unfold updSession
      refine List.mem_map.mpr ⟨s0, hmem, ?_⟩
      dsimp only
      rw [if_pos hsid]
    refine ⟨{ s0 with messages := updMsg mid f s0.messages }, hmem2, hsid, f pm, ?_,
      by rw [hid]; exact hpmid, by rw [hsender]; exact hpsender,
      by rw [hstatus]; exact hpstatus, by rw [herr]; exact hperr⟩
    show (List.map _ s0.messages).getLast? = _
    rw [List.getLast?_map, hlast]
    simp [hpmid]
  · intro s' hs' m' hm' hpend
    obtain ⟨s, hsmem, he⟩ := mem_updSession hs'
    by_cases hcase : s.id = sid
    · rw [if_pos hcase] at he
      subst he
      obtain ⟨m, hmmem, hme⟩ := mem_updMsg hm'
      have hstat : m.status = .pending := by
        by_cases hmc : m.id = mid
        · rw [if_pos hmc] at hme
          rw [hme, hstatus] at hpend
          exact hpend
        · rw [if_neg hmc] at hme
          rw [hme] at hpend
          exact hpend
      have hm2 := huniq s hsmem m hmmem hstat
      refine ⟨hcase, ?_⟩
      by_cases hmc : m.id = mid <;> simp [hmc, hid] at hme <;> rw [hme] <;>
        simp [hid, hm2.2, hmc]
    · rw [if_neg hcase] at he
      rw [he] at hm'
      exact absurd (huniq s hsmem m' hm' hpend).1 hcase

theorem Inv_initState : Inv initState := by
  refine ⟨⟨by simp [initState], by simp [initState]⟩, by simp [AltOK, initState],
    StreamOK_of_none rfl (by simp [NoPending, initState])⟩

theorem Inv_set_cur {st : ChatState} (h : Inv st) (c : Option Nat) :
    Inv { st with currentSessionId := c } := h

theorem Inv_stop {st : ChatState} (h : Inv st) : Inv (stopStep st).2 := by
  cases hs : st.streaming with
  | none =>
    have he : (stopStep st).2 = st := by simp [stopStep, hs]
    rw [he]; exact h
  | some p =>
    obtain ⟨sid, mid⟩ := p
    have h2 := Inv_finalize (f := fun m => { m with status := MsgStatus.stopped })
      (fun m => rfl) (fun m => rfl) (fun m => by simp) h hs
    have he : (stopStep st).2 = { st with
        sessions := setMsg st.sessions sid mid (fun m => { m with status := MsgStatus.stopped }),
        streaming := none } := by
      simp [stopStep, hs]
    rw [he]; exact h2

theorem Inv_cancel {st : ChatState} (h : Inv st) : Inv (cancelIfStreaming st) :=
  Inv_stop h

theorem cancel_streaming (st : ChatState) :
    (cancelIfStreaming st).streaming = none := by
  cases hs : st.streaming with
  | none => simp [cancelIfStreaming, stopStep, hs]
  | some p => obtain ⟨sid, mid⟩ := p; simp [cancelIfStreaming, stopStep, hs]

theorem cancel_cur (st : ChatState) :
    (cancelIfStreaming st).currentSessionId = st.currentSessionId := by
  cases hs : st.streaming with
  | none => simp [cancelIfStreaming, stopStep, hs]
  | some p => obtain ⟨sid, mid⟩ := p; simp [cancelIfStreaming, stopStep, hs]

theorem cancel_nextId (st : ChatState) :
    (cancelIfStreaming st).nextId = st.nextId := by
  cases hs : st.streaming with
  | none => simp [cancelIfStreaming, stopStep, hs]
  | some p => obtain ⟨sid, mid⟩ := p; simp [cancelIfStreaming, stopStep, hs]

theorem cancel_model (st : ChatState) :
    (cancelIfStreaming st).currentModel = st.currentModel := by
  cases hs : st.streaming with
  | none => simp [cancelIfStreaming, stopStep, hs]
  | some p => obtain ⟨sid, mid⟩ := p; simp [cancelIfStreaming, stopStep, hs]

theorem cancel_ids (st : ChatState) :
    (cancelIfStreaming st).sessions.map Session.id = st.sessions.map Session.id := by
  cases hs : st.streaming with
  | none => simp [cancelIfStreaming, stopStep, hs]
  | some p =>
    obtain ⟨sid, mid⟩ := p
    have he : (cancelIfStreaming st).sessions = setMsg st.sessions sid mid
        (fun m => { m with status := MsgStatus.stopped }) := by
      simp [cancelIfStreaming, stopStep, hs]
    rw [he]
    exact map_id_updSession (f := fun s => { s with messages := updMsg mid (fun m => { m with status := MsgStatus.stopped }) s.messages }) (fun s => rfl) st.sessions sid

theorem Inv_complete {st : ChatState} (h : Inv st) : Inv (completeStep st) := by
  cases hs : st.streaming with
  | none =>
    have he : completeStep st = st := by simp [completeStep, hs]
    rw [he]; exact h
  | some p =>
    obtain ⟨sid, mid⟩ := p
    have h2 := Inv_finalize (f := fun m => { m with status := MsgStatus.complete })
      (fun m => rfl) (fun m => rfl) (fun m => by simp) h hs
    have he : completeStep st = { st with
        sessions := setMsg st.sessions sid mid (fun m => { m with status := MsgStatus.complete }),
        streaming := none } := by
      simp [completeStep, hs]
    rw [he]; exact h2

theorem Inv_error {st : ChatState} (emsg : String) (h : Inv st) :
    Inv (errorStep st emsg) := by
  cases hs : st.streaming with
  | none =>
    have he : errorStep st emsg = st := by simp [errorStep, hs]
    rw [he]; exact h
  | some p =>
    obtain ⟨sid, mid⟩ := p
    have h2 := Inv_finalize
      (f := fun m => { m with status := MsgStatus.errored, isError := true, text := emsg })
      (fun m => rfl) (fun m => rfl) (fun m => by simp) h hs
    have he : errorStep st emsg = { st with
        sessions := setMsg st.sessions sid mid
          (fun m => { m with status := MsgStatus.errored, isError := true, text := emsg }),
        streaming := none } := by
      simp [errorStep, hs]
    rw [he]; exact h2

theorem Inv_tick {st : ChatState} (c : String) (h : Inv st) :
    Inv (tickStep st c) := by
  cases hs : st.streaming with
  | none =>
    have he : tickStep st c = st := by simp [tickStep, hs]
    rw [he]; exact h
  | some p =>
    obtain ⟨sid, mid⟩ := p
    have h2 := Inv_tick_gen (f := fun m => { m with text := m.text ++ c })
      (fun m => rfl) (fun m => rfl) (fun m => rfl) (fun m => rfl) h hs
    have he : tickStep st c = { st with
        sessions := setMsg st.sessions sid mid (fun m => { m with text := m.text ++ c }) } := by
      simp [tickStep, hs]
    rw [he]; exact h2

theorem Inv_addSession {st : ChatState} (h : Inv st) (hs : st.streaming = none)
    (t : Nat) :
    Inv { st with
      sessions := st.sessions ++ [mkSession st.nextId t st.currentModel],
      currentSessionId := some st.nextId,
      nextId := st.nextId + 1 } := by
  obtain ⟨⟨hnd, hbound⟩, halt, hstream⟩ := h
  have hnp := StreamOK_none hstream hs
  refine ⟨⟨?_, ?_⟩, ?_, StreamOK_of_none hs ?_⟩
  · show ((st.sessions ++ [mkSession st.nextId t st.currentModel]).map Session.id).Nodup
    rw [List.map_append, List.nodup_append]
    refine ⟨hnd, by simp, ?_⟩
    intro x hx hx2
    obtain ⟨s, hsmem, rfl⟩ := List.mem_map.mp hx
    simp only [List.map_cons, List.map_nil, List.mem_singleton, mkSession] at hx2
    have := (hbound s hsmem).1
    omega
  · intro s' hs'
    have hs2 : s' ∈ st.sessions ++ [mkSession st.nextId t st.currentModel] := hs'
    rw [List.mem_append] at hs2
    cases hs2 with
    | inl hmem =>
      obtain ⟨h1, h2, h3⟩ := hbound s' hmem
      refine ⟨show s'.id < st.nextId + 1 by omega, h2, ?_⟩
      intro m hm
      have := h3 m hm
      show m.id < st.nextId + 1
      omega
    | inr hmem =>
      simp only [List.mem_singleton] at hmem
      subst hmem
      exact ⟨show st.nextId < st.nextId + 1 by omega, by simp [mkSession], by simp [mkSession]⟩
  · intro s' hs'
    have hs2 : s' ∈ st.sessions ++ [mkSession st.nextId t st.currentModel] := hs'
    rw [List.mem_append] at hs2
    cases hs2 with
    | inl hmem => exact halt s' hmem
    | inr hmem =>
      simp only [List.mem_singleton] at hmem
      subst hmem
      exact .nil
  · intro s' hs' m hm hp
    have hs2 : s' ∈ st.sessions ++ [mkSession st.nextId t st.currentModel] := hs'
    rw [List.mem_append] at hs2
    cases hs2 with
    | inl hmem => exact hnp s' hmem m hm hp
    | inr hmem =>
      simp only [List.mem_singleton] at hmem
      subst hmem
      simp [mkSession] at hm

/-- Starting a generation from a prepared Idle state whose target session log
ends in a user message preserves the invariant. -/
theorem Inv_startGen {st : ChatState} {cid : Nat}
    (hs : st.streaming = none)
    (hnd : (st.sessions.map Session.id).Nodup)
    (hbound : ∀ s ∈ st.sessions, s.id < st.nextId
      ∧ (s.messages.map Message.id).Nodup ∧ ∀ m ∈ s.messages, m.id < st.nextId)
    (halt : ∀ s ∈ st.sessions, s.id ≠ cid → StrictAlt s.messages)
    (haltc : ∀ s ∈ st.sessions, s.id = cid →
      ∃ x u, s.messages = x ++ [u] ∧ StrictAlt x ∧ u.sender = .user)
    (hnp : NoPending st.sessions)
    (hex : ∃ s ∈ st.sessions, s.id = cid)
    (t : Nat) :
    Inv (startGen st cid t) := by
  refine ⟨⟨?_, ?_⟩, ?_, StreamOK_of_pending rfl ⟨?_, ?_⟩⟩
  · show ((updSession st.sessions cid
      (fun s => { s with messages := s.messages ++ [mkPendingMsg st.nextId t], updatedAt := t })).map Session.id).Nodup
    apply nodup_ids_updSession
    · exact fun s => rfl
    · exact hnd
  · intro s' hs'
    obtain ⟨s, hsmem, he⟩ := mem_updSession hs'
    obtain ⟨h1, h2, h3⟩ := hbound s hsmem
    by_cases hcase : s.id = cid
    · rw [if_pos hcase] at he
      subst he
      refine ⟨show s.id < st.nextId + 1 by omega, ?_, ?_⟩
      · show ((s.messages ++ [mkPendingMsg st.nextId t]).map Message.id).Nodup
        rw [List.map_append, List.nodup_append]
        refine ⟨h2, by simp, ?_⟩
        intro x hx hx2
        obtain ⟨m, hmmem, rfl⟩ := List.mem_map.mp hx
        simp only [List.map_cons, List.map_nil, List.mem_singleton, mkPendingMsg] at hx2
        have := h3 m hmmem
        omega
      · intro m hm
        have hm2 : m ∈ s.messages ++ [mkPendingMsg st.nextId t] := hm
        rw [List.mem_append] at hm2
        show m.id < st.nextId + 1
        cases hm2 with
        | inl hmem => have := h3 m hmem; omega
        | inr hmem =>
          simp only [List.mem_singleton] at hmem
          subst hmem
          simp [mkPendingMsg]
    · rw [if_neg hcase] at he
      subst he
      refine ⟨show s'.id < st.nextId + 1 by omega, h2, ?_⟩
      intro m hm
      have := h3 m hm
      show m.id < st.nextId + 1
      omega
  · intro s' hs'
    obtain ⟨s, hsmem, he⟩ := mem_updSession hs'
    by_cases hcase : s.id = cid
    · rw [if_pos hcase] at he
      subst he
      obtain ⟨x, u, hxu, hx, hu⟩ := haltc s hsmem hcase
      show StrictAlt (s.messages ++ [mkPendingMsg st.nextId t])
      rw [hxu, List.append_assoc]
      exact hx.append_pair u (mkPendingMsg st.nextId t) hu rfl
    · rw [if_neg hcase] at he
      subst he
      exact halt s' hsmem hcase
  · obtain ⟨s, hsmem, hsid⟩ := hex
    have hmem2 : ({ s with messages := s.messages ++ [mkPendingMsg st.nextId t], updatedAt := t } : Session) ∈ (startGen st cid t).sessions := by
      show _ ∈ updSession st.sessions cid _
      unfold updSession
      refine List.mem_map.mpr ⟨s, hsmem, ?_⟩
      dsimp only
      rw [if_pos hsid]
    refine ⟨_, hmem2, hsid, mkPendingMsg st.nextId t, ?_, rfl, rfl, rfl, rfl⟩
    show (s.messages ++ [mkPendingMsg st.nextId t]).getLast? = _
    exact List.getLast?_concat _
  · intro s' hs' m hm hp
    obtain ⟨s, hsmem, he⟩ := mem_updSession hs'
    by_cases hcase : s.id = cid
    · rw [if_pos hcase] at he
      have hmm : m ∈ s.messages ++ [mkPendingMsg st.nextId t] := by
        rw [he] at hm
        exact hm
      rw [List.mem_append] at hmm
      cases hmm with
      | inl hmem => exact absurd hp (hnp s hsmem m hmem)
      | inr hmem =>
        simp only [List.mem_singleton] at hmem
        subst hmem
        constructor
        · rw [he]; exact hcase
        · rfl
    · rw [if_neg hcase] at he
      rw [he] at hm
      exact absurd hp (hnp s hsmem m hm)

theorem takeUpTo_sublist (mid : Nat) (l : List Message) :
    (takeUpTo mid l).Sublist l := by
  induction l with
  | nil => simp [takeUpTo]
  | cons m ms ih =>
    unfold takeUpTo
    by_cases hc : m.id = mid
    · rw [if_pos hc]
      exact (List.nil_sublist ms).cons₂ m
    · rw [if_neg hc]
      exact ih.cons₂ m

theorem takeUpTo_found {l : List Message} {mid : Nat} {m : Message}
    (hf : l.find? (fun x => x.id == mid) = some m) :
    ∃ l₁ l₂, l = l₁ ++ m :: l₂ ∧ (∀ x ∈ l₁, x.id ≠ mid)
      ∧ takeUpTo mid l = l₁ ++ [m] := by
  induction l with
  | nil => simp [List.find?] at hf
  | cons a l ih =>
    by_cases hc : a.id = mid
    · have : a = m := by
        rw [List.find?_cons] at hf
        simp [hc] at hf
        exact hf
      subst this
      refine ⟨[], l, by simp, by simp, ?_⟩
      unfold takeUpTo
      rw [if_pos hc]
      simp
    · have hf2 : l.find? (fun x => x.id == mid) = some m := by
        rw [List.find?_cons] at hf
        have hcb : (a.id == mid) = false := by simp [hc]
        simpa [hcb] using hf
      obtain ⟨l₁, l₂, hl, hni, ht⟩ := ih hf2
      refine ⟨a :: l₁, l₂, by rw [List.cons_append, hl], ?_, ?_⟩
      · intro x hx
        rcases List.mem_cons.mp hx with hx | hx
        · subst hx; exact hc
        · exact hni x hx
      · unfold takeUpTo
        rw [if_neg hc, ht]
        simp

theorem Inv_load {st : ChatState} (h : Inv st) (sid : Nat) :
    Inv (loadSessionStep st sid) := by
  unfold loadSessionStep
  split
  · exact Inv_set_cur h _
  · exact h

theorem Inv_del {st : ChatState} (h : Inv st) (sid : Nat) :
    Inv (deleteSessionStep st sid) := by
  have h0 := Inv_cancel h
  have hs0 := cancel_streaming st
  obtain ⟨⟨hnd, hbound⟩, halt, hstream⟩ := h0
  have hnp := StreamOK_none hstream hs0
  refine ⟨⟨?_, ?_⟩, ?_, StreamOK_of_none hs0 ?_⟩
  · show (((cancelIfStreaming st).sessions.filter (fun s => s.id != sid)).map Session.id).Nodup
    exact ((List.filter_sublist _).map Session.id).nodup hnd
  · intro s' hs'
    have hs2 : s' ∈ (cancelIfStreaming st).sessions.filter (fun s => s.id != sid) := hs'
    exact hbound s' (List.mem_filter.mp hs2).1
  · intro s' hs'
    have hs2 : s' ∈ (cancelIfStreaming st).sessions.filter (fun s => s.id != sid) := hs'
    exact halt s' (List.mem_filter.mp hs2).1
  · intro s' hs' m hm hp
    have hs2 : s' ∈ (cancelIfStreaming st).sessions.filter (fun s => s.id != sid) := hs'
    exact hnp s' (List.mem_filter.mp hs2).1 m hm hp

theorem Inv_clear {st : ChatState} (h : Inv st) : Inv (clearAllStep st) := by
  refine ⟨⟨?_, ?_⟩, ?_, StreamOK_of_none (cancel_streaming st) ?_⟩
  · show (([] : List Session).map Session.id).Nodup
    simp
  · intro s hs
    exact absurd (show s ∈ ([] : List Session) from hs) (List.not_mem_nil s)
  · intro s hs
    exact absurd (show s ∈ ([] : List Session) from hs) (List.not_mem_nil s)
  · intro s hs
    exact absurd (show s ∈ ([] : List Session) from hs) (List.not_mem_nil s)

theorem Inv_newChat {st : ChatState} (h : Inv st) (t : Nat) :
    Inv (startNewChatStep st t) :=
  Inv_addSession (Inv_cancel h) (cancel_streaming st) t

/-- Appending a fresh user message to an existing session of an Idle state and
starting a generation there preserves the invariant; g abstracts over the
title/updatedAt bookkeeping. -/
theorem Inv_appendUser_start {st : ChatState} (h : Inv st)
    (hs : st.streaming = none) {cid : Nat} {c : Session}
    (hfind : findSession st.sessions cid = some c)
    (text : String) (att : Option Attachment) (t : Nat)
    (g : Session → Session)
    (hgid : ∀ s, (g s).id = s.id)
    (hgmsg : ∀ s, (g s).messages = s.messages ++ [mkUserMsg st.nextId text att t]) :
    Inv (startGen { st with
      sessions := updSession st.sessions cid g,
      nextId := st.nextId + 1 } cid t) := by
  obtain ⟨⟨hnd, hbound⟩, halt, hstream⟩ := h
  have hnp := StreamOK_none hstream hs
  obtain ⟨hcmem, hcid⟩ := findSession_eq_some hfind
  apply Inv_startGen
  · show st.streaming = none
    exact hs
  · show ((updSession st.sessions cid g).map Session.id).Nodup
    exact nodup_ids_updSession g hgid hnd
  · intro s' hs'
    obtain ⟨s, hsmem, he⟩ := mem_updSession hs'
    obtain ⟨h1, h2, h3⟩ := hbound s hsmem
    by_cases hcase : s.id = cid
    · rw [if_pos hcase] at he
      subst he
      refine ⟨show (g s).id < st.nextId + 1 by rw [hgid]; omega, ?_, ?_⟩
      · rw [hgmsg, List.map_append, List.nodup_append]
        refine ⟨h2, by simp, ?_⟩
        intro x hx hx2
        obtain ⟨m, hmmem, rfl⟩ := List.mem_map.mp hx
        simp only [List.map_cons, List.map_nil, List.mem_singleton, mkUserMsg] at hx2
        have := h3 m hmmem
        omega
      · intro m hm
        rw [hgmsg, List.mem_append] at hm
        show m.id < st.nextId + 1
        cases hm with
        | inl hmem => have := h3 m hmem; omega
        | inr hmem =>
          simp only [List.mem_singleton] at hmem
          subst hmem
          simp [mkUserMsg]
    · rw [if_neg hcase] at he
      subst he
      refine ⟨show s'.id < st.nextId + 1 by omega, h2, ?_⟩
      intro m hm
      have := h3 m hm
      show m.id < st.nextId + 1
      omega
  · intro s' hs' hne
    obtain ⟨s, hsmem, he⟩ := mem_updSession hs'
    by_cases hcase : s.id = cid
    · rw [if_pos hcase] at he
      rw [he] at hne
      rw [hgid] at hne
      exact absurd hcase hne
    · rw [if_neg hcase] at he
      subst he
      exact halt s' hsmem
  · intro s' hs' hcase2
    obtain ⟨s, hsmem, he⟩ := mem_updSession hs'
    by_cases hcase : s.id = cid
    · rw [if_pos hcase] at he
      subst he
      exact ⟨s.messages, mkUserMsg st.nextId text att t, hgmsg s, halt s hsmem, rfl⟩
    · rw [if_neg hcase] at he
      rw [he] at hcase2
      exact absurd hcase2 hcase
  · intro s' hs' m hm hp
    obtain ⟨s, hsmem, he⟩ := mem_updSession hs'
    by_cases hcase : s.id = cid
    · rw [if_pos hcase] at he
      rw [he, hgmsg, List.mem_append] at hm
      cases hm with
      | inl hmem => exact absurd hp (hnp s hsmem m hmem)
      | inr hmem =>
        simp only [List.mem_singleton] at hmem
        subst hmem
        simp [mkUserMsg] at hp
    · rw [if_neg hcase] at he
      rw [he] at hm
      exact absurd hp (hnp s hsmem m hm)
  · refine ⟨g c, ?_, by rw [hgid]; exact hcid⟩
    unfold updSession
    have hmm := List.mem_map_of_mem (fun s => if s.id = cid then g s else s) hcmem
    dsimp only at hmm
    rw [if_pos hcid] at hmm
    exact hmm

theorem Inv_send {st : ChatState} (h : Inv st) (text : String)
    (att : Option Attachment) (t : Nat) :
    Inv (sendMessageStep st text att t).2 := by
  by_cases hb : st.streaming.isSome
  · have he : (sendMessageStep st text att t).2 = st := by
      simp [sendMessageStep, hb]
    rw [he]; exact h
  · have hs : st.streaming = none := by
      cases hx : st.streaming with
      | none => rfl
      | some p => rw [hx] at hb; simp at hb
    cases hex : st.currentSessionId.bind (fun cid => findSession st.sessions cid) with
    | some c =>
      obtain ⟨cid0, hcur, hfind⟩ := Option.bind_eq_some.mp hex
      have hcid : c.id = cid0 := (findSession_eq_some hfind).2
      have he : (sendMessageStep st text att t).2
          = startGen { st with
              sessions := updSession st.sessions c.id (fun s => { s with
                messages := s.messages ++ [mkUserMsg st.nextId text att t],
                title := if s.title = defaultTitle then deriveTitle text else s.title,
                updatedAt := t }),
              nextId := st.nextId + 1 } c.id t := by
        simp [sendMessageStep, hs, hex]
      rw [he]
      exact Inv_appendUser_start h hs (hcid ▸ hfind) text att t _
        (fun s => rfl) (fun s => rfl)
    | none =>
      have h1 : Inv { st with
          sessions := st.sessions ++ [mkSession st.nextId t st.currentModel],
          currentSessionId := some st.nextId,
          nextId := st.nextId + 1 } := Inv_addSession h hs t
      have hnone : findSession st.sessions st.nextId = none := by
        unfold findSession
        rw [List.find?_eq_none]
        intro s hsmem
        have := (h.1.2 s hsmem).1
        simp
        omega
      have hfind1 : findSession
          (st.sessions ++ [mkSession st.nextId t st.currentModel]) st.nextId
          = some (mkSession st.nextId t st.currentModel) := by
        have hap := findSession_append st.sessions (mkSession st.nextId t st.currentModel)
        rw [show (mkSession st.nextId t st.currentModel).id = st.nextId from rfl] at hap
        rw [hnone] at hap
        exact hap
      have he : (sendMessageStep st text att t).2
          = startGen { { st with
                sessions := st.sessions ++ [mkSession st.nextId t st.currentModel],
                currentSessionId := some st.nextId,
                nextId := st.nextId + 1 } with
              sessions := updSession
                (st.sessions ++ [mkSession st.nextId t st.currentModel])
                st.nextId (fun s => { s with
                  messages := s.messages ++ [mkUserMsg (st.nextId + 1) text att t],
                  title := if s.title = defaultTitle then deriveTitle text else s.title,
                  updatedAt := t }),
              nextId := st.nextId + 1 + 1 } st.nextId t := by
        simp [sendMessageStep, hs, hex]
      rw [he]
      exact Inv_appendUser_start h1 hs hfind1 text att t _
        (fun s => rfl) (fun s => rfl)

theorem Inv_edit {st : ChatState} (h : Inv st) (mid : Nat) (newText : String)
    (t : Nat) : Inv (editMessageStep st mid newText t).2 := by
  have h0 := Inv_cancel h
  have hs0 := cancel_streaming st
  cases hc : (cancelIfStreaming st).currentSessionId with
  | none =>
    have he : (editMessageStep st mid newText t).2 = cancelIfStreaming st := by
      simp [editMessageStep, hc]
    rw [he]; exact h0
  | some cid =>
    cases hf : findSession (cancelIfStreaming st).sessions cid with
    | none =>
      have he : (editMessageStep st mid newText t).2 = cancelIfStreaming st := by
        simp [editMessageStep, hc, hf]
      rw [he]; exact h0
    | some s =>
      cases hfm : s.messages.find? (fun m => m.id == mid) with
      | none =>
        have he : (editMessageStep st mid newText t).2 = cancelIfStreaming st := by
          simp [editMessageStep, hc, hf, hfm]
        rw [he]; exact h0
      | some m =>
        by_cases hsend : m.sender = .user
        · have he : (editMessageStep st mid newText t).2
              = startGen { cancelIfStreaming st with
                  sessions := updSession (cancelIfStreaming st).sessions cid
                    (fun s => { s with
                      messages := updMsg mid (fun x => { x with text := newText })
                        (takeUpTo mid s.messages),
                      updatedAt := t }) } cid t := by
            simp [editMessageStep, hc, hf, hfm, hsend]
          rw [he]
          obtain ⟨⟨hnd0, hbound0⟩, halt0, hstream0⟩ := h0
          have hnp0 := StreamOK_none hstream0 hs0
          obtain ⟨hsmem, hsid⟩ := findSession_eq_some hf
          have hmid : m.id = mid := by simpa using List.find?_some hfm
          obtain ⟨l₁, l₂, hl, hni, ht⟩ := takeUpTo_found hfm
          apply Inv_startGen
          · show (cancelIfStreaming st).streaming = none
            exact hs0
          · show ((updSession (cancelIfStreaming st).sessions cid _).map Session.id).Nodup
            apply nodup_ids_updSession
            · exact fun s => rfl
            · exact hnd0
          · intro s' hs'
            obtain ⟨s2, hs2mem, he2⟩ := mem_updSession hs'
            obtain ⟨h1, h2, h3⟩ := hbound0 s2 hs2mem
            by_cases hcase : s2.id = cid
            · rw [if_pos hcase] at he2
              subst he2
              refine ⟨h1, ?_, ?_⟩
              · show ((updMsg mid _ (takeUpTo mid s2.messages)).map Message.id).Nodup
                rw [map_id_updMsg (f := fun x => { x with text := newText }) (fun x => rfl)]
                exact (((takeUpTo_sublist mid s2.messages).map Message.id).nodup h2)
              · intro m' hm'
                obtain ⟨x, hxmem, hxe⟩ := mem_updMsg hm'
                have hxmem2 : x ∈ s2.messages :=
                  (takeUpTo_sublist mid s2.messages).subset hxmem
                have hlt := h3 x hxmem2
                have hmeq : m'.id = x.id := by
                  by_cases hxc : x.id = mid
                  · rw [if_pos hxc] at hxe; rw [hxe]
                  · rw [if_neg hxc] at hxe; rw [hxe]
                show m'.id < (cancelIfStreaming st).nextId
                rw [hmeq]
                exact hlt
            · rw [if_neg hcase] at he2
              subst he2
              exact ⟨h1, h2, h3⟩
          · intro s' hs' hne
            obtain ⟨s2, hs2mem, he2⟩ := mem_updSession hs'
            by_cases hcase : s2.id = cid
            · rw [if_pos hcase] at he2
              rw [he2] at hne
              exact absurd hcase hne
            · rw [if_neg hcase] at he2
              subst he2
              exact halt0 s' hs2mem
          · intro s' hs' hceq
            obtain ⟨s2, hs2mem, he2⟩ := mem_updSession hs'
            by_cases hcase : s2.id = cid
            · rw [if_pos hcase] at he2
              have hss : s2 = s := by
                have hff := findSession_of_mem hnd0 hs2mem
                rw [hcase, hf] at hff
                injection hff with hff
                exact hff.symm
              subst hss
              subst he2
              refine ⟨l₁, { m with text := newText }, ?_, ?_, hsend⟩
              · show updMsg mid (fun x => { x with text := newText })
                  (takeUpTo mid s2.messages) = l₁ ++ [{ m with text := newText }]
                rw [ht]
                refine updMsg_append_last l₁ m hmid ?_
                intro hmem2
                obtain ⟨x, hxmem, hxe⟩ := List.mem_map.mp hmem2
                exact hni x hxmem hxe
              · exact StrictAlt.of_append_user (hl ▸ halt0 s2 hs2mem) l₁ l₂ m rfl hsend
            · rw [if_neg hcase] at he2
              rw [he2] at hceq
              exact absurd hceq hcase
          · intro s' hs' m' hm' hp
            obtain ⟨s2, hs2mem, he2⟩ := mem_updSession hs'
            by_cases hcase : s2.id = cid
            · rw [if_pos hcase] at he2
              rw [he2] at hm'
              obtain ⟨x, hxmem, hxe⟩ := mem_updMsg hm'
              have hxmem2 : x ∈ s2.messages :=
                (takeUpTo_sublist mid s2.messages).subset hxmem
              have hnope := hnp0 s2 hs2mem x hxmem2
              have hst : m'.status = x.status := by
                by_cases hxc : x.id = mid <;> simp [hxc] at hxe <;> rw [hxe]
              rw [hst] at hp
              exact absurd hp hnope
            · rw [if_neg hcase] at he2
              rw [he2] at hm'
              exact absurd hp (hnp0 s2 hs2mem m' hm')
          · refine ⟨{ s with
              messages := updMsg mid (fun x => { x with text := newText })
                (takeUpTo mid s.messages),
              updatedAt := t }, ?_, hsid⟩
            unfold updSession
            have hmm := List.mem_map_of_mem (fun s2 => if s2.id = cid then
              { s2 with
                messages := updMsg mid (fun x => { x with text := newText })
                  (takeUpTo mid s2.messages),
                updatedAt := t } else s2) hsmem
            dsimp only at hmm
            rw [if_pos hsid] at hmm
            exact hmm
        · have he : (editMessageStep st mid newText t).2 = cancelIfStreaming st := by
            simp [editMessageStep, hc, hf, hfm, hsend]
          rw [he]; exact h0

theorem Inv_regen {st : ChatState} (h : Inv st) (mid : Nat) (t : Nat) :
    Inv (regenerateStep st mid t).2 := by
  have h0 := Inv_cancel h
  have hs0 := cancel_streaming st
  cases hc : (cancelIfStreaming st).currentSessionId with
  | none =>
    have he : (regenerateStep st mid t).2 = cancelIfStreaming st := by
      simp [regenerateStep, hc]
    rw [he]; exact h0
  | some cid =>
    cases hf : findSession (cancelIfStreaming st).sessions cid with
    | none =>
      have he : (regenerateStep st mid t).2 = cancelIfStreaming st := by
        simp [regenerateStep, hc, hf]
      rw [he]; exact h0
    | some s =>
      cases hlast : s.messages.getLast? with
      | none =>
        have he : (regenerateStep st mid t).2 = cancelIfStreaming st := by
          simp [regenerateStep, hc, hf, hlast]
        rw [he]; exact h0
      | some lastMsg =>
        by_cases hg : lastMsg.id = mid ∧ lastMsg.sender = .assistant
        · have he : (regenerateStep st mid t).2
              = startGen { cancelIfStreaming st with
                  sessions := updSession (cancelIfStreaming st).sessions cid
                    (fun s => { s with
                      messages := s.messages.dropLast,
                      updatedAt := t }) } cid t := by
            simp [regenerateStep, hc, hf, hlast, hg]
          rw [he]
          obtain ⟨⟨hnd0, hbound0⟩, halt0, hstream0⟩ := h0
          have hnp0 := StreamOK_none hstream0 hs0
          obtain ⟨hsmem, hsid⟩ := findSession_eq_some hf
          apply Inv_startGen
          · show (cancelIfStreaming st).streaming = none
            exact hs0
          · show ((updSession (cancelIfStreaming st).sessions cid _).map Session.id).Nodup
            apply nodup_ids_updSession
            · exact fun s => rfl
            · exact hnd0
          · intro s' hs'
            obtain ⟨s2, hs2mem, he2⟩ := mem_updSession hs'
            obtain ⟨h1, h2, h3⟩ := hbound0 s2 hs2mem
            by_cases hcase : s2.id = cid
            · rw [if_pos hcase] at he2
              subst he2
              refine ⟨h1, ?_, ?_⟩
              · show ((s2.messages.dropLast).map Message.id).Nodup
                exact ((s2.messages.dropLast_sublist).map Message.id).nodup h2
              · intro m' hm'
                have : m' ∈ s2.messages := s2.messages.dropLast_sublist.subset hm'
                exact h3 m' this
            · rw [if_neg hcase] at he2
              subst he2
              exact ⟨h1, h2, h3⟩
          · intro s' hs' hne
            obtain ⟨s2, hs2mem, he2⟩ := mem_updSession hs'
            by_cases hcase : s2.id = cid
            · rw [if_pos hcase] at he2
              rw [he2] at hne
              exact absurd hcase hne
            · rw [if_neg hcase] at he2
              subst he2
              exact halt0 s' hs2mem
          · intro s' hs' hceq
            obtain ⟨s2, hs2mem, he2⟩ := mem_updSession hs'
            by_cases hcase : s2.id = cid
            · rw [if_pos hcase] at he2
              have hss : s2 = s := by
                have hff := findSession_of_mem hnd0 hs2mem
                rw [hcase, hf] at hff
                injection hff with hff
                exact hff.symm
              subst hss
              subst he2
              have hne2 : s2.messages ≠ [] := by
                intro hemp
                rw [hemp] at hlast
                simp at hlast
              obtain ⟨x, u, a, hxua, hx, hu, ha⟩ :=
                (halt0 s2 hs2mem).last_pair hne2
              have hdrop : s2.messages.dropLast = x ++ [u] := by
                rw [hxua, show x ++ [u, a] = (x ++ [u]) ++ [a] by simp,
                  List.dropLast_concat]
              refine ⟨x, u, ?_, hx, hu⟩
              show s2.messages.dropLast = x ++ [u]
              exact hdrop
            · rw [if_neg hcase] at he2
              rw [he2] at hceq
              exact absurd hceq hcase
          · intro s' hs' m' hm' hp
            obtain ⟨s2, hs2mem, he2⟩ := mem_updSession hs'
            by_cases hcase : s2.id = cid
            · rw [if_pos hcase] at he2
              rw [he2] at hm'
              have : m' ∈ s2.messages := s2.messages.dropLast_sublist.subset hm'
              exact absurd hp (hnp0 s2 hs2mem m' this)
            · rw [if_neg hcase] at he2
              rw [he2] at hm'
              exact absurd hp (hnp0 s2 hs2mem m' hm')
          · refine ⟨{ s with messages := s.messages.dropLast, updatedAt := t },
              ?_, hsid⟩
            unfold updSession
            have hmm := List.mem_map_of_mem (fun s2 => if s2.id = cid then
              { s2 with messages := s2.messages.dropLast, updatedAt := t }
              else s2) hsmem
            dsimp only at hmm
            rw [if_pos hsid] at hmm
            exact hmm
        · have he : (regenerateStep st mid t).2 = cancelIfStreaming st := by
            simp [regenerateStep, hc, hf, hlast, hg]
          rw [he]; exact h0

/-- Every event preserves the invariant. -/
theorem Inv_step {st : ChatState} (h : Inv st) (e : Ev) : Inv (stepState e st) := by
  cases e with
  | send text att t => exact Inv_send h text att t
  | stop => exact Inv_stop h
  | regen mid t => exact Inv_regen h mid t
  | edit mid newText t => exact Inv_edit h mid newText t
  | newChat t => exact Inv_newChat h t
  | load sid => exact Inv_load h sid
  | del sid => exact Inv_del h sid
  | clearAll => exact Inv_clear h
  | tick c => exact Inv_tick c h
  | finish => exact Inv_complete h
  | fail e => exact Inv_error e h

/-- The invariant holds in every reachable state. -/
theorem Reachable_Inv {st : ChatState} (h : Reachable st) : Inv st := by
  induction h with
  | init => exact Inv_initState
  | next e _ ih => exact Inv_step ih e

theorem notin_of_nodup {init : List Message} {pm : Message} {mid : Nat}
    (hnd : ((init ++ [pm]).map Message.id).Nodup) (hpmid : pm.id = mid) :
    mid ∉ init.map Message.id := by
  rw [List.map_append, List.nodup_append] at hnd
  intro hmem
  exact hnd.2.2 hmem (by simp [hpmid])

/-- One stream increment appends its chunk to the pending message's text. -/
theorem tick_find {st : ChatState} {sid mid : Nat} {c : Session}
    {init : List Message} {pm : Message}
    (hinv : Inv st) (hs : st.streaming = some (sid, mid))
    (hfind : findSession st.sessions sid = some c)
    (hmsg : c.messages = init ++ [pm]) (hpmid : pm.id = mid) (a : String) :
    findSession (tickStep st a).sessions sid
      = some { c with messages := init ++ [{ pm with text := pm.text ++ a }] } := by
  have hcmem := (findSession_eq_some hfind).1
  have hcid := (findSession_eq_some hfind).2
  have hnd : (c.messages.map Message.id).Nodup := (hinv.1.2 c hcmem).2.1
  have hnotin : mid ∉ init.map Message.id :=
    notin_of_nodup (by rw [← hmsg]; exact hnd) hpmid
  have hstep : (tickStep st a).sessions
      = updSession st.sessions sid (fun s => { s with
          messages := updMsg mid (fun m => { m with text := m.text ++ a }) s.messages }) := by
    simp [tickStep, hs, setMsg]
  rw [hstep,
    findSession_updSession (f := fun s => { s with
      messages := updMsg mid (fun m => { m with text := m.text ++ a }) s.messages })
      (fun s => rfl),
    hfind, Option.map_some']
  rw [if_pos hcid]
  have hupd : updMsg mid (fun m => { m with text := m.text ++ a }) c.messages
      = init ++ [{ pm with text := pm.text ++ a }] := by
    rw [hmsg]
    exact updMsg_append_last init pm hpmid hnotin
  rw [hupd]

/-- The state after any number of stream increments: still Streaming into the
same message, whose text has grown by the concatenation of the chunks. -/
theorem applyTicks_run (cs : List String) :
    ∀ st sid mid (c : Session) init (pm : Message), Inv st →
    st.streaming = some (sid, mid) →
    findSession st.sessions sid = some c → c.messages = init ++ [pm] →
    pm.id = mid →
    Inv (applyTicks st cs)
    ∧ (applyTicks st cs).streaming = some (sid, mid)
    ∧ ∃ c', findSession (applyTicks st cs).sessions sid = some c'
        ∧ c'.messages = init ++ [{ pm with text := pm.text ++ joinAll cs }] := by
  induction cs with
  | nil =>
    intro st sid mid c init pm hinv hs hfind hmsg hpmid
    refine ⟨hinv, hs, c, hfind, ?_⟩
    rw [hmsg]
    have : ({ pm with text := pm.text ++ joinAll [] } : Message) = pm := by
      show ({ pm with text := pm.text ++ "" } : Message) = pm
      rw [String.append_empty]
    rw [this]
  | cons a cs ih =>
    intro st sid mid c init pm hinv hs hfind hmsg hpmid
    have hinv2 : Inv (tickStep st a) := Inv_tick a hinv
    have hs2 : (tickStep st a).streaming = some (sid, mid) := by
      cases hx : st.streaming with
      | none => rw [hx] at hs; cases hs
      | some p =>
        obtain ⟨s1, m1⟩ := p
        have ht : tickStep st a = { st with sessions := setMsg st.sessions s1 m1 (fun m => { m with text := m.text ++ a }) } := by
          simp [tickStep, hx]
        rw [ht]
        show st.streaming = some (sid, mid)
        exact hs
    have hfind2 := tick_find hinv hs hfind hmsg hpmid a
    have happ : applyTicks st (a :: cs) = applyTicks (tickStep st a) cs := rfl
    rw [happ]
    obtain ⟨hI, hS, c', hf', hm'⟩ := ih (tickStep st a) sid mid _ init
      { pm with text := pm.text ++ a } hinv2 hs2 hfind2 rfl hpmid
    refine ⟨hI, hS, c', hf', ?_⟩
    rw [hm']
    show init ++ [{ pm with text := pm.text ++ a ++ joinAll cs }]
      = init ++ [{ pm with text := pm.text ++ (a ++ joinAll cs) }]
    rw [String.append_assoc]

/-- Finalizing (stop or complete) rewrites exactly the pending message. -/
theorem setMsg_find {st : ChatState} {sid mid : Nat} {c : Session}
    {init : List Message} {pm : Message} (f : Message → Message)
    (hinv : Inv st)
    (hfind : findSession st.sessions sid = some c)
    (hmsg : c.messages = init ++ [pm]) (hpmid : pm.id = mid) :
    findSession (setMsg st.sessions sid mid f) sid
      = some { c with messages := init ++ [f pm] } := by
  have hcmem := (findSession_eq_some hfind).1
  have hcid := (findSession_eq_some hfind).2
  have hnd : (c.messages.map Message.id).Nodup := (hinv.1.2 c hcmem).2.1
  have hnotin : mid ∉ init.map Message.id :=
    notin_of_nodup (by rw [← hmsg]; exact hnd) hpmid
  unfold setMsg
  rw [findSession_updSession (f := fun s => { s with
      messages := updMsg mid f s.messages }) (fun s => rfl),
    hfind, Option.map_some']
  rw [if_pos hcid]
  have hupd : updMsg mid f c.messages = init ++ [f pm] := by
    rw [hmsg]
    exact updMsg_append_last init pm hpmid hnotin
  rw [hupd]

theorem cancel_eq_of_none {st : ChatState} (hs : st.streaming = none) :
    cancelIfStreaming st = st := by
  simp [cancelIfStreaming, stopStep, hs]

theorem StrictAlt.noConsec_cons {l : List Message} (h : StrictAlt l)
    (x : Message) : NoConsecAssistant (x :: l) := by
  induction h generalizing x with
  | nil => exact trivial
  | pair u a rest hu ha hrest ih =>
    show ¬(x.sender = .assistant ∧ u.sender = .assistant)
      ∧ NoConsecAssistant (u :: a :: rest)
    refine ⟨fun hcon => ?_, ?_⟩
    · have hc2 := hcon.2
      rw [hu] at hc2
      simp at hc2
    · show ¬(u.sender = .assistant ∧ a.sender = .assistant)
        ∧ NoConsecAssistant (a :: rest)
      refine ⟨fun hcon => ?_, ih a⟩
      have hc1 := hcon.1
      rw [hu] at hc1
      simp at hc1

theorem StrictAlt.noConsec {l : List Message} (h : StrictAlt l) :
    NoConsecAssistant l := by
  cases h with
  | nil => exact trivial
  | pair u a rest hu ha hrest =>
    show ¬(u.sender = .assistant ∧ a.sender = .assistant)
      ∧ NoConsecAssistant (a :: rest)
    refine ⟨fun hcon => ?_, hrest.noConsec_cons a⟩
    have hc1 := hcon.1
    rw [hu] at hc1
    simp at hc1

theorem StrictAlt.headNot {l : List Message} (h : StrictAlt l) :
    HeadNotAssistant l := by
  intro m hm
  cases h with
  | nil => simp at hm
  | pair u a rest hu ha hrest =>
    rw [List.head?_cons] at hm
    injection hm with hm
    rw [← hm, hu]
    simp

theorem findMsg_of_mem {ms : List Message} (hnd : (ms.map Message.id).Nodup)
    {m : Message} (hm : m ∈ ms) :
    ms.find? (fun x => x.id == m.id) = some m := by
  induction ms with
  | nil => cases hm
  | cons a ms ih =>
    rw [List.map_cons, List.nodup_cons] at hnd
    cases hm with
    | head => simp [List.find?_cons]
    | tail _ hmem =>
      have hne : (a.id == m.id) = false := by
        simp only [beq_eq_false_iff_ne, ne_eq]
        intro he
        exact hnd.1 (he ▸ List.mem_map_of_mem Message.id hmem)
      simp only [List.find?_cons, hne]
      exact ih hnd.2 hmem

theorem take_decomp {ms : List Message} {i : Nat} {m : Message}
    (hget : ms[i]? = some m) : ms = ms.take i ++ m :: ms.drop (i + 1) := by
  obtain ⟨hlt, hge⟩ := List.getElem?_eq_some_iff.mp hget
  conv_lhs => rw [← List.take_append_drop i ms]
  rw [List.drop_eq_getElem_cons hlt, hge]

theorem not_mem_take_ids {ms : List Message}
    (hnd : (ms.map Message.id).Nodup) {i : Nat} {m : Message}
    (hget : ms[i]? = some m) : ∀ x ∈ ms.take i, x.id ≠ m.id := by
  have hdec := take_decomp hget
  rw [hdec, List.map_append, List.nodup_append] at hnd
  intro x hx he
  exact hnd.2.2 (List.mem_map_of_mem Message.id hx)
    (by rw [List.map_cons]; exact he ▸ List.mem_cons_self _ _)

theorem takeUpTo_of_split (l₁ : List Message) (m : Message) (l₂ : List Message)
    (hni : ∀ x ∈ l₁, x.id ≠ m.id) :
    takeUpTo m.id (l₁ ++ m :: l₂) = l₁ ++ [m] := by
  induction l₁ with
  | nil =>
    rw [List.nil_append]
    unfold takeUpTo
    rw [if_pos rfl]
    simp
  | cons a l₁ ih =>
    rw [List.cons_append]
    unfold takeUpTo
    rw [if_neg (hni a (List.mem_cons_self a l₁))]
    rw [ih (fun x hx => hni x (List.mem_cons_of_mem a hx))]
    simp

theorem map_id_filter (ss : List Session) (sid : Nat) :
    ((ss.filter (fun s => s.id != sid)).map Session.id)
      = (ss.map Session.id).filter (fun x => x != sid) := by
  induction ss with
  | nil => rfl
  | cons s ss ih =>
    rw [List.filter_cons, List.map_cons, List.filter_cons]
    by_cases hc : (s.id != sid) = true
    · rw [if_pos hc, if_pos hc, List.map_cons, ih]
    · rw [if_neg hc, if_neg hc, ih]

theorem editMessageStep_cancel (st : ChatState) (mid : Nat) (newText : String)
    (t : Nat) :
    editMessageStep st mid newText t
      = editMessageStep (cancelIfStreaming st) mid newText t := by
  conv_rhs => rw [editMessageStep]
  rw [cancel_eq_of_none (cancel_streaming st)]
  rfl

theorem regenerateStep_cancel (st : ChatState) (mid : Nat) (t : Nat) :
    regenerateStep st mid t
      = regenerateStep (cancelIfStreaming st) mid t := by
  conv_rhs => rw [regenerateStep]
  rw [cancel_eq_of_none (cancel_streaming st)]
  rfl

/-- The cancellation preceding a mutation either leaves the looked-up session
untouched, or only turns its trailing pending assistant message into a
stopped one. -/
theorem cancel_find {st : ChatState} (hinv : Inv st) {cid : Nat} {c : Session}
    (hfind : findSession st.sessions cid = some c) :
    findSession (cancelIfStreaming st).sessions cid = some c
    ∨ ∃ init pm, c.messages = init ++ [pm] ∧ pm.sender = .assistant
        ∧ findSession (cancelIfStreaming st).sessions cid
            = some { c with messages := init ++ [{ pm with status := .stopped }] } := by
  cases hx : st.streaming with
  | none =>
    rw [cancel_eq_of_none hx]
    exact Or.inl hfind
  | some p =>
    obtain ⟨sid0, mid0⟩ := p
    have hsess : (cancelIfStreaming st).sessions
        = setMsg st.sessions sid0 mid0 (fun m => { m with status := MsgStatus.stopped }) := by
      simp [cancelIfStreaming, stopStep, hx]
    by_cases hceq : sid0 = cid
    · subst hceq
      obtain ⟨cS, init, pm, hfS, hmsgS, hpmid, hpsender, _, _, _⟩ :=
        pending_shape hinv hx
      have hcc : cS = c := by
        rw [hfS] at hfind
        injection hfind
      subst hcc
      refine Or.inr ⟨init, pm, hmsgS, hpsender, ?_⟩
      rw [hsess]
      exact setMsg_find _ hinv hfS hmsgS hpmid
    · left
      rw [hsess]
      unfold setMsg
      rw [findSession_updSession (f := fun s => { s with
          messages := updMsg mid0 (fun m => { m with status := MsgStatus.stopped }) s.messages })
          (fun s => rfl),
        hfind, Option.map_some']
      rw [if_neg (by rw [(findSession_eq_some hfind).2]; exact fun he => hceq he.symm)]

/-- Description of a successful editMessage from an Idle state: the log is
truncated at the edited user message, its text replaced, and a fresh pending
assistant message appended. -/
theorem editMessage_run (st : ChatState) (hinv : Inv st)
    (hs : st.streaming = none)
    {cid : Nat} {c : Session} {i : Nat} {m : Message}
    (hcur : st.currentSessionId = some cid)
    (hfind : findSession st.sessions cid = some c)
    (hget : c.messages[i]? = some m)
    (hu : m.sender = .user) (newText : String) (t : Nat) :
    (editMessageStep st m.id newText t).1 = none
    ∧ (editMessageStep st m.id newText t).2.streaming = some (cid, st.nextId)
    ∧ Inv (editMessageStep st m.id newText t).2
    ∧ ∃ c1, findSession (editMessageStep st m.id newText t).2.sessions cid = some c1
        ∧ c1.messages = c.messages.take i
            ++ [{ m with text := newText }, mkPendingMsg st.nextId t] := by
  have hcmem := (findSession_eq_some hfind).1
  have hcid := (findSession_eq_some hfind).2
  have hnd : (c.messages.map Message.id).Nodup := (hinv.1.2 c hcmem).2.1
  have hmmem : m ∈ c.messages := by
    obtain ⟨hlt, hge⟩ := List.getElem?_eq_some_iff.mp hget
    exact hge ▸ List.getElem_mem hlt
  have hfm : c.messages.find? (fun x => x.id == m.id) = some m :=
    findMsg_of_mem hnd hmmem
  have hni := not_mem_take_ids hnd hget
  have hTake : takeUpTo m.id c.messages = c.messages.take i ++ [m] := by
    conv_lhs => rw [take_decomp hget]
    exact takeUpTo_of_split _ m _ hni
  have hupd : updMsg m.id (fun x => { x with text := newText })
      (takeUpTo m.id c.messages)
      = c.messages.take i ++ [{ m with text := newText }] := by
    rw [hTake]
    refine updMsg_append_last _ m rfl ?_
    intro hmem2
    obtain ⟨x, hxmem, hxe⟩ := List.mem_map.mp hmem2
    exact hni x hxmem hxe
  have hcancel : cancelIfStreaming st = st := cancel_eq_of_none hs
  have he : editMessageStep st m.id newText t
      = (none, startGen { st with
          sessions := updSession st.sessions cid (fun s => { s with
            messages := updMsg m.id (fun x => { x with text := newText })
              (takeUpTo m.id s.messages),
            updatedAt := t }) } cid t) := by
    simp [editMessageStep, hcancel, hcur, hfind, hfm, hu]
  have hIe := Inv_edit hinv m.id newText t
  rw [he] at hIe ⊢
  refine ⟨rfl, rfl, hIe, ?_⟩
  have hfind1 : findSession (updSession st.sessions cid (fun s => { s with
        messages := updMsg m.id (fun x => { x with text := newText })
          (takeUpTo m.id s.messages),
        updatedAt := t })) cid
      = some { c with
          messages := c.messages.take i ++ [{ m with text := newText }],
          updatedAt := t } := by
    rw [findSession_updSession (f := fun s => { s with
        messages := updMsg m.id (fun x => { x with text := newText })
          (takeUpTo m.id s.messages),
        updatedAt := t }) (fun s => rfl), hfind, Option.map_some']
    rw [if_pos hcid, hupd]
  have hfind2 : findSession (startGen { st with
        sessions := updSession st.sessions cid (fun s => { s with
          messages := updMsg m.id (fun x => { x with text := newText })
            (takeUpTo m.id s.messages),
          updatedAt := t }) } cid t).sessions cid
      = some { c with
          messages := (c.messages.take i ++ [{ m with text := newText }])
            ++ [mkPendingMsg st.nextId t],
          updatedAt := t } := by
    show findSession (updSession _ cid (fun s => { s with
      messages := s.messages ++ [mkPendingMsg st.nextId t], updatedAt := t })) cid = _
    rw [findSession_updSession (f := fun s => { s with
        messages := s.messages ++ [mkPendingMsg st.nextId t], updatedAt := t })
        (fun s => rfl), hfind1, Option.map_some']
    rw [if_pos (show ({ c with
      messages := c.messages.take i ++ [{ m with text := newText }],
      updatedAt := t } : Session).id = cid from hcid)]
  refine ⟨_, hfind2, ?_⟩
  show (c.messages.take i ++ [{ m with text := newText }])
      ++ [mkPendingMsg st.nextId t] = _
  rw [List.append_assoc]
  rfl

/-- Description of a successful regenerateResponse from an Idle state: exactly
the trailing assistant message is replaced by a fresh pending one. -/
theorem regenerate_run (st : ChatState) (hinv : Inv st)
    (hs : st.streaming = none) {cid : Nat} {c : Session}
    (hcur : st.currentSessionId = some cid)
    (hfind : findSession st.sessions cid = some c)
    (init : List Message) (a : Message) {mid : Nat} (hamid : a.id = mid)
    (hmsg : c.messages = init ++ [a]) (ha : a.sender = .assistant) (t : Nat) :
    (regenerateStep st mid t).1 = none
    ∧ (regenerateStep st mid t).2.streaming = some (cid, st.nextId)
    ∧ Inv (regenerateStep st mid t).2
    ∧ ∃ c1, findSession (regenerateStep st mid t).2.sessions cid = some c1
        ∧ c1.messages = init ++ [mkPendingMsg st.nextId t] := by
  have hcid := (findSession_eq_some hfind).2
  have hlast : c.messages.getLast? = some a := by
    rw [hmsg]
    exact List.getLast?_concat _
  have hdrop : c.messages.dropLast = init := by
    rw [hmsg]
    exact List.dropLast_concat
  have hcancel : cancelIfStreaming st = st := cancel_eq_of_none hs
  have he : regenerateStep st mid t
      = (none, startGen { st with
          sessions := updSession st.sessions cid (fun s => { s with
            messages := s.messages.dropLast,
            updatedAt := t }) } cid t) := by
    simp [regenerateStep, hcancel, hcur, hfind, hlast, hamid, ha]
  have hIe := Inv_regen hinv mid t
  rw [he] at hIe ⊢
  refine ⟨rfl, rfl, hIe, ?_⟩
  have hfind1 : findSession (updSession st.sessions cid (fun s => { s with
        messages := s.messages.dropLast, updatedAt := t })) cid
      = some { c with messages := init, updatedAt := t } := by
    rw [findSession_updSession (f := fun s => { s with
        messages := s.messages.dropLast, updatedAt := t }) (fun s => rfl),
      hfind, Option.map_some']
    rw [if_pos hcid, hdrop]
  have hfind2 : findSession (startGen { st with
        sessions := updSession st.sessions cid (fun s => { s with
          messages := s.messages.dropLast, updatedAt := t }) } cid t).sessions cid
      = some { c with
          messages := init ++ [mkPendingMsg st.nextId t],
          updatedAt := t } := by
    show findSession (updSession _ cid (fun s => { s with
      messages := s.messages ++ [mkPendingMsg st.nextId t], updatedAt := t })) cid = _
    rw [findSession_updSession (f := fun s => { s with
        messages := s.messages ++ [mkPendingMsg st.nextId t], updatedAt := t })
        (fun s => rfl), hfind1, Option.map_some']
    rw [if_pos (show ({ c with messages := init, updatedAt := t } : Session).id
      = cid from hcid)]
  exact ⟨_, hfind2, rfl⟩

/-- Natural completion after any number of increments finalizes the pending
message in place. -/
theorem complete_run (st : ChatState) (hinv : Inv st) {sid mid : Nat}
    (hs : st.streaming = some (sid, mid)) {c : Session} {init : List Message}
    {pm : Message}
    (hfind : findSession st.sessions sid = some c)
    (hmsg : c.messages = init ++ [pm]) (hpmid : pm.id = mid) (cs : List String) :
    ∃ c2, findSession (completeStep (applyTicks st cs)).sessions sid = some c2
      ∧ c2.messages = init
          ++ [{ pm with text := pm.text ++ joinAll cs, status := .complete }] := by
  obtain ⟨hI, hS, c', hf', hm'⟩ :=
    applyTicks_run cs st sid mid c init pm hinv hs hfind hmsg hpmid
  have hcomp : completeStep (applyTicks st cs)
      = { applyTicks st cs with
          sessions := setMsg (applyTicks st cs).sessions sid mid
            (fun m => { m with status := MsgStatus.complete }),
          streaming := none } := by
    simp [completeStep, hS]
  rw [hcomp]
  exact ⟨_, setMsg_find _ hI hf' hm' hpmid, rfl⟩

/-- Stopping after any number of increments keeps the accumulated text and
marks the message stopped. -/
theorem stop_run (st : ChatState) (hinv : Inv st) {sid mid : Nat}
    (hs : st.streaming = some (sid, mid)) {c : Session} {init : List Message}
    {pm : Message}
    (hfind : findSession st.sessions sid = some c)
    (hmsg : c.messages = init ++ [pm]) (hpmid : pm.id = mid) (cs : List String) :
    (stopStep (applyTicks st cs)).1 = none
    ∧ ∃ c2, findSession (stopStep (applyTicks st cs)).2.sessions sid = some c2
      ∧ c2.messages = init
          ++ [{ pm with text := pm.text ++ joinAll cs, status := .stopped }] := by
  obtain ⟨hI, hS, c', hf', hm'⟩ :=
    applyTicks_run cs st sid mid c init pm hinv hs hfind hmsg hpmid
  have hfst : (stopStep (applyTicks st cs)).1 = none := by
    simp [stopStep, hS]
  have hsnd : (stopStep (applyTicks st cs)).2
      = { applyTicks st cs with
          sessions := setMsg (applyTicks st cs).sessions sid mid
            (fun m => { m with status := MsgStatus.stopped }),
          streaming := none } := by
    simp [stopStep, hS]
  rw [hsnd]
  exact ⟨hfst, _, setMsg_find _ hI hf' hm' hpmid, rfl⟩

/-- C1: in every reachable state at most one message across the entire
session collection is pending (any two pending messages coincide), and the
Generation Controller's start — reached through sendMessage — is refused with
Busy while Streaming, leaving the state untouched. -/
theorem single_flight (st : ChatState) (h : Reachable st) :
    AtMostOnePending st
    ∧ ∀ text att t, st.streaming.isSome = true →
        sendMessageStep st text att t = (some .busy, st) := by
  have hinv := Reachable_Inv h
  constructor
  · intro s1 hs1 s2 hs2 m1 hm1 m2 hm2 hp1 hp2
    cases hx : st.streaming with
    | none =>
      exact absurd hp1 (StreamOK_none hinv.2.2 hx s1 hs1 m1 hm1)
    | some p =>
      obtain ⟨sid, mid⟩ := p
      obtain ⟨_, huniq⟩ := StreamOK_some hinv.2.2 hx
      have h1 := huniq s1 hs1 m1 hm1 hp1
      have h2 := huniq s2 hs2 m2 hm2 hp2
      have hseq : s1 = s2 :=
        List.inj_on_of_nodup_map hinv.1.1 hs1 hs2 (by rw [h1.1, h2.1])
      subst hseq
      have hmeq : m1 = m2 :=
        List.inj_on_of_nodup_map (hinv.1.2 s1 hs1).2.1 hm1 hm2 (by rw [h1.2, h2.2])
      exact ⟨rfl, hmeq⟩
  · intro text att t hb
    simp [sendMessageStep, hb]

theorem single_flight_witness :
    Reachable (stepState (.send "hi" none 0) initState)
    ∧ (AtMostOnePending (stepState (.send "hi" none 0) initState)
      ∧ ∀ text att t,
          (stepState (.send "hi" none 0) initState).streaming.isSome = true →
          sendMessageStep (stepState (.send "hi" none 0) initState) text att t
            = (some .busy, stepState (.send "hi" none 0) initState)) :=
  ⟨Reachable.next _ Reachable.init,
   single_flight _ (Reachable.next _ Reachable.init)⟩

/-- C2: in every reachable state at rest (controller Idle, no pending
generation), no session's log has two consecutive assistant messages and no
session's log starts with an assistant message. -/
theorem alternation_at_rest (st : ChatState) (h : Reachable st)
    (hidle : st.streaming = none) :
    ∀ s ∈ st.sessions, NoConsecAssistant s.messages ∧ HeadNotAssistant s.messages := by
  have hinv := Reachable_Inv h
  intro s hs
  have halt := hinv.2.1 s hs
  exact ⟨halt.noConsec, halt.headNot⟩

theorem alternation_at_rest_witness :
    Reachable (stepState .finish (stepState (.send "hi" none 0) initState))
    ∧ (stepState .finish (stepState (.send "hi" none 0) initState)).streaming = none
    ∧ ∀ s ∈ (stepState .finish (stepState (.send "hi" none 0) initState)).sessions,
        NoConsecAssistant s.messages ∧ HeadNotAssistant s.messages :=
  ⟨Reachable.next _ (Reachable.next _ Reachable.init), rfl,
   alternation_at_rest _ (Reachable.next _ (Reachable.next _ Reachable.init)) rfl⟩

/-- C6: calling sendMessage while the controller is Streaming is rejected
with Busy and is a no-op on the whole facade state; this is the contract the
model implements uniformly (the alternative contract — unreachability by
construction — is not the one chosen, since the facade must defend anyway). -/
theorem sendMessage_busy (st : ChatState) (text : String)
    (att : Option Attachment) (t : Nat) (h : st.streaming.isSome = true) :
    sendMessageStep st text att t = (some .busy, st) := by
  simp [sendMessageStep, h]

theorem sendMessage_busy_witness :
    (stepState (.send "hi" none 0) initState).streaming.isSome = true
    ∧ sendMessageStep (stepState (.send "hi" none 0) initState) "again" none 1
        = (some .busy, stepState (.send "hi" none 0) initState) :=
  ⟨rfl, sendMessage_busy _ "again" none 1 rfl⟩

/-- C7: deleteSession removes exactly the session with the given id from the
collection (preserving the order of the remaining ids), every surviving
session has a different id, and the current-session pointer becomes none when
the deleted session was current and is untouched otherwise — never a stale
id. -/
theorem deleteSession_spec (st : ChatState) (sid : Nat) :
    (deleteSessionStep st sid).sessions.map Session.id
      = (st.sessions.map Session.id).filter (fun x => x != sid)
    ∧ (∀ s ∈ (deleteSessionStep st sid).sessions, s.id ≠ sid)
    ∧ (st.currentSessionId = some sid →
        (deleteSessionStep st sid).currentSessionId = none)
    ∧ (st.currentSessionId ≠ some sid →
        (deleteSessionStep st sid).currentSessionId = st.currentSessionId) := by
  refine ⟨?_, ?_, ?_, ?_⟩
  · show (((cancelIfStreaming st).sessions.filter (fun s => s.id != sid)).map Session.id) = _
    rw [map_id_filter, cancel_ids]
  · intro s hs
    have hs2 : s ∈ (cancelIfStreaming st).sessions.filter (fun s => s.id != sid) := hs
    have := (List.mem_filter.mp hs2).2
    simpa using this
  · intro hc
    show (if (cancelIfStreaming st).currentSessionId = some sid then none
      else (cancelIfStreaming st).currentSessionId) = none
    rw [if_pos (by rw [cancel_cur]; exact hc)]
  · intro hc
    show (if (cancelIfStreaming st).currentSessionId = some sid then none
      else (cancelIfStreaming st).currentSessionId) = st.currentSessionId
    rw [if_neg (by rw [cancel_cur]; exact hc), cancel_cur]

theorem deleteSession_spec_witness :
    (stepState (.newChat 0) initState).currentSessionId = some 0
    ∧ (deleteSessionStep (stepState (.newChat 0) initState) 0).sessions.map Session.id
        = ((stepState (.newChat 0) initState).sessions.map Session.id).filter
            (fun x => x != 0)
    ∧ (deleteSessionStep (stepState (.newChat 0) initState) 0).currentSessionId = none :=
  ⟨rfl, (deleteSession_spec (stepState (.newChat 0) initState) 0).1,
   (deleteSession_spec (stepState (.newChat 0) initState) 0).2.2.1 rfl⟩

/-- C8: saving a session collection under a user key and loading it back with
the same key yields an equal collection, for every collection and every prior
store contents; and loading a key whose data is absent or fails to parse
yields the empty sequence (the total function never throws). -/
theorem storage_roundtrip :
    (∀ key sessions store,
      loadSessions key (saveSessions key sessions store) = sessions)
    ∧ (∀ key (store : Storage), store key = none → loadSessions key store = [])
    ∧ (∀ key (store : Storage) raw, store key = some raw →
        decodeSessions raw = none → loadSessions key store = []) := by
  refine ⟨?_, ?_, ?_⟩
  · intro key sessions store
    unfold loadSessions saveSessions
    rw [if_pos rfl]
    show (decodeSessions (encodeSessions sessions)).getD [] = sessions
    rw [decodeSessions_encodeSessions]
    rfl
  · intro key store hk
    unfold loadSessions
    rw [hk]
  · intro key store raw h1 h2
    unfold loadSessions
    rw [h1]
    show (decodeSessions raw).getD [] = []
    rw [h2]
    rfl

theorem storage_roundtrip_witness :
    loadSessions "u" (saveSessions "u" [] (fun _ => none)) = []
    ∧ ((fun _ => none : Storage) "u" = none ∧ loadSessions "u" (fun _ => none) = [])
    ∧ ((fun _ => some (String.mk ['\\']) : Storage) "u" = some (String.mk ['\\'])
        ∧ decodeSessions (String.mk ['\\']) = none
        ∧ loadSessions "u" (fun _ => some (String.mk ['\\'])) = []) :=
  ⟨storage_roundtrip.1 "u" [] (fun _ => none),
   ⟨rfl, storage_roundtrip.2.1 "u" (fun _ => none) rfl⟩,
   ⟨rfl, rfl,
    storage_roundtrip.2.2 "u" (fun _ => some (String.mk ['\\']))
      (String.mk ['\\']) rfl rfl⟩⟩

/-- C3: Modelled from the spec (§4.5): editing a user message of the current
session (any running generation cancelled first) succeeds, truncates the log
right after that message, replaces its text with the new text, and starts a
fresh generation from that point; after any stream run completing naturally
the log is the preserved head, the edited user message, and one complete
assistant message holding exactly the concatenated increments. -/
theorem editMessage_truncation (st : ChatState) (h : Reachable st)
    (cid : Nat) (c : Session) (i : Nat) (m : Message)
    (hcur : st.currentSessionId = some cid)
    (hfind : findSession st.sessions cid = some c)
    (hget : c.messages[i]? = some m)
    (hu : m.sender = .user) (newText : String) (t : Nat) :
    (editMessageStep st m.id newText t).1 = none
    ∧ ∃ pid, (editMessageStep st m.id newText t).2.streaming = some (cid, pid)
      ∧ (∃ c1, findSession (editMessageStep st m.id newText t).2.sessions cid
            = some c1
          ∧ c1.messages = c.messages.take i
              ++ [{ m with text := newText }, mkPendingMsg pid t])
      ∧ ∀ cs, ∃ c2, findSession (completeStep (applyTicks
            (editMessageStep st m.id newText t).2 cs)).sessions cid = some c2
          ∧ c2.messages = c.messages.take i
              ++ [{ m with text := newText },
                  { mkPendingMsg pid t with
                      text := joinAll cs, status := .complete }] := by
  have hinv := Reachable_Inv h
  have hinv0 : Inv (cancelIfStreaming st) := Inv_cancel hinv
  have hs0 : (cancelIfStreaming st).streaming = none := cancel_streaming st
  have hcur0 : (cancelIfStreaming st).currentSessionId = some cid := by
    rw [cancel_cur]
    exact hcur
  rw [editMessageStep_cancel st m.id newText t]
  have hkey : ∃ c0, findSession (cancelIfStreaming st).sessions cid = some c0
      ∧ c0.messages[i]? = some m ∧ c0.messages.take i = c.messages.take i := by
    rcases cancel_find hinv hfind with hcf | ⟨init, pm, hmsgc, hpma, hcf⟩
    · exact ⟨c, hcf, hget, rfl⟩
    · have hlt : i < init.length := by
        by_contra hge
        push_neg at hge
        rw [hmsgc, List.getElem?_append, if_neg (not_lt.mpr hge)] at hget
        cases hd : i - init.length with
        | zero =>
          rw [hd] at hget
          simp at hget
          rw [hget, hu] at hpma
          simp at hpma
        | succ n =>
          rw [hd] at hget
          simp at hget
      refine ⟨_, hcf, ?_, ?_⟩
      · show (init ++ [{ pm with status := MsgStatus.stopped }])[i]? = some m
        rw [List.getElem?_append, if_pos hlt]
        rw [hmsgc, List.getElem?_append, if_pos hlt] at hget
        exact hget
      · show (init ++ [{ pm with status := MsgStatus.stopped }]).take i
            = c.messages.take i
        rw [List.take_append_of_le_length (le_of_lt hlt), hmsgc,
          List.take_append_of_le_length (le_of_lt hlt)]
  obtain ⟨c0, hf0, hget0, htake0⟩ := hkey
  obtain ⟨hfst, hstr, hInvE, c1, hf1, hm1⟩ :=
    editMessage_run (cancelIfStreaming st) hinv0 hs0 hcur0 hf0 hget0 hu newText t
  refine ⟨hfst, (cancelIfStreaming st).nextId, hstr,
    ⟨c1, hf1, by rw [hm1, htake0]⟩, ?_⟩
  intro cs
  have hm1' : c1.messages
      = (c.messages.take i ++ [{ m with text := newText }])
        ++ [mkPendingMsg (cancelIfStreaming st).nextId t] := by
    rw [hm1, htake0, List.append_assoc]
    rfl
  obtain ⟨c2, hf2, hm2⟩ := complete_run _ hInvE hstr hf1 hm1' rfl cs
  refine ⟨c2, hf2, ?_⟩
  rw [hm2]
  have htext : (mkPendingMsg (cancelIfStreaming st).nextId t).text ++ joinAll cs
      = joinAll cs := by
    show "" ++ joinAll cs = joinAll cs
    simp
  rw [htext, List.append_assoc]
  rfl

theorem editMessage_truncation_witness :
    Reachable exChat
    ∧ exChat.currentSessionId = some 0
    ∧ findSession exChat.sessions 0 = some exSession
    ∧ exSession.messages[0]? = some (mkUserMsg 1 "hi" none 0)
    ∧ (mkUserMsg 1 "hi" none 0).sender = .user
    ∧ ((editMessageStep exChat (mkUserMsg 1 "hi" none 0).id "yo" 5).1 = none
      ∧ ∃ pid,
          (editMessageStep exChat (mkUserMsg 1 "hi" none 0).id "yo" 5).2.streaming
            = some (0, pid)
        ∧ (∃ c1, findSession
              (editMessageStep exChat (mkUserMsg 1 "hi" none 0).id "yo" 5).2.sessions 0
              = some c1
            ∧ c1.messages = exSession.messages.take 0
                ++ [{ mkUserMsg 1 "hi" none 0 with text := "yo" },
                    mkPendingMsg pid 5])
        ∧ ∀ cs, ∃ c2, findSession (completeStep (applyTicks
              (editMessageStep exChat (mkUserMsg 1 "hi" none 0).id "yo" 5).2 cs)).sessions 0
              = some c2
            ∧ c2.messages = exSession.messages.take 0
                ++ [{ mkUserMsg 1 "hi" none 0 with text := "yo" },
                    { mkPendingMsg pid 5 with
                        text := joinAll cs, status := .complete }]) :=
  ⟨Reachable.next _ (Reachable.next _ Reachable.init), rfl, rfl, rfl, rfl,
   editMessage_truncation exChat (Reachable.next _ (Reachable.next _ Reachable.init))
     0 exSession 0 (mkUserMsg 1 "hi" none 0) rfl rfl rfl rfl "yo" 5⟩

/-- C4: Modelled from the spec (§4.5): regenerateResponse is refused with
InvalidState whenever the current session's log does not end in an assistant
message carrying the requested id; when it does end in such a message (any
running generation cancelled first), the call succeeds, drops that trailing
assistant message and starts a fresh generation in its place, and after a
stream run completing naturally the log is the preserved head followed by one
complete assistant message holding exactly the concatenated increments. -/
theorem regenerate_spec (st : ChatState) (h : Reachable st)
    (cid : Nat) (c : Session)
    (hcur : st.currentSessionId = some cid)
    (hfind : findSession st.sessions cid = some c) (t : Nat) :
    (∀ mid, (∀ a, c.messages.getLast? = some a →
        a.id = mid ∧ a.sender = .assistant → False) →
      (regenerateStep st mid t).1 = some .invalidState)
    ∧ ∀ init a, c.messages = init ++ [a] → a.sender = .assistant →
        (regenerateStep st a.id t).1 = none
        ∧ ∃ pid, (regenerateStep st a.id t).2.streaming = some (cid, pid)
          ∧ (∃ c1, findSession (regenerateStep st a.id t).2.sessions cid
                = some c1
              ∧ c1.messages = init ++ [mkPendingMsg pid t])
          ∧ ∀ cs, ∃ c2, findSession (completeStep (applyTicks
                (regenerateStep st a.id t).2 cs)).sessions cid = some c2
              ∧ c2.messages = init ++ [{ mkPendingMsg pid t with
                  text := joinAll cs, status := .complete }] := by
  have hinv := Reachable_Inv h
  have hinv0 : Inv (cancelIfStreaming st) := Inv_cancel hinv
  have hs0 : (cancelIfStreaming st).streaming = none := cancel_streaming st
  have hcur0 : (cancelIfStreaming st).currentSessionId = some cid := by
    rw [cancel_cur]
    exact hcur
  constructor
  · intro mid hno
    rw [regenerateStep_cancel st mid t]
    rcases cancel_find hinv hfind with hcf | ⟨init, pm, hmsgc, hpma, hcf⟩
    · cases hlast : c.messages.getLast? with
      | none =>
        simp [regenerateStep, cancel_eq_of_none hs0, hcur0, hcf, hlast]
      | some lastC =>
        have hcond : ¬(lastC.id = mid ∧ lastC.sender = Sender.assistant) :=
          fun hcon => hno lastC hlast hcon
        simp [regenerateStep, cancel_eq_of_none hs0, hcur0, hcf, hlast, hcond]
    · have hlastc : c.messages.getLast? = some pm := by
        rw [hmsgc]
        exact List.getLast?_concat _
      have hlast0 : (init ++ [{ pm with status := MsgStatus.stopped }]).getLast?
          = some { pm with status := MsgStatus.stopped } :=
        List.getLast?_concat _
      have hcond : ¬({ pm with status := MsgStatus.stopped }.id = mid
          ∧ { pm with status := MsgStatus.stopped }.sender = Sender.assistant) :=
        fun hcon => hno pm hlastc ⟨hcon.1, hpma⟩
      simp [regenerateStep, cancel_eq_of_none hs0, hcur0, hcf, hlast0, hcond]
  · intro init a hmsg ha
    rw [regenerateStep_cancel st a.id t]
    rcases cancel_find hinv hfind with hcf | ⟨init0, pm, hmsgc, hpma, hcf⟩
    · obtain ⟨hfst, hstr, hInvE, c1, hf1, hm1⟩ :=
        regenerate_run (cancelIfStreaming st) hinv0 hs0 hcur0 hcf init a rfl hmsg ha t
      refine ⟨hfst, (cancelIfStreaming st).nextId, hstr, ⟨c1, hf1, hm1⟩, ?_⟩
      intro cs
      obtain ⟨c2, hf2, hm2⟩ := complete_run _ hInvE hstr hf1 hm1 rfl cs
      refine ⟨c2, hf2, ?_⟩
      rw [hm2]
      have htext : (mkPendingMsg (cancelIfStreaming st).nextId t).text ++ joinAll cs
          = joinAll cs := by
        show "" ++ joinAll cs = joinAll cs
        simp
      rw [htext]
    · have hpa : pm = a := by
        have h1 : c.messages.getLast? = some pm := by
          rw [hmsgc]
          exact List.getLast?_concat _
        have h2 : c.messages.getLast? = some a := by
          rw [hmsg]
          exact List.getLast?_concat _
        rw [h1] at h2
        injection h2
      have hini : init0 = init := by
        have h1 : c.messages.dropLast = init0 := by
          rw [hmsgc]
          exact List.dropLast_concat
        have h2 : c.messages.dropLast = init := by
          rw [hmsg]
          exact List.dropLast_concat
        rw [h1] at h2
        exact h2
      rw [hpa, hini] at hcf
      obtain ⟨hfst, hstr, hInvE, c1, hf1, hm1⟩ :=
        regenerate_run (cancelIfStreaming st) hinv0 hs0 hcur0 hcf init
          { a with status := MsgStatus.stopped } rfl rfl ha t
      refine ⟨hfst, (cancelIfStreaming st).nextId, hstr, ⟨c1, hf1, hm1⟩, ?_⟩
      intro cs
      obtain ⟨c2, hf2, hm2⟩ := complete_run _ hInvE hstr hf1 hm1 rfl cs
      refine ⟨c2, hf2, ?_⟩
      rw [hm2]
      have htext : (mkPendingMsg (cancelIfStreaming st).nextId t).text ++ joinAll cs
          = joinAll cs := by
        show "" ++ joinAll cs = joinAll cs
        simp
      rw [htext]

theorem regenerate_spec_witness :
    Reachable exChat
    ∧ exChat.currentSessionId = some 0
    ∧ findSession exChat.sessions 0 = some exSession
    ∧ exSession.messages
        = [mkUserMsg 1 "hi" none 0] ++ [{ mkPendingMsg 2 0 with status := .complete }]
    ∧ ({ mkPendingMsg 2 0 with status := MsgStatus.complete } : Message).sender
        = .assistant
    ∧ ((regenerateStep exChat
          ({ mkPendingMsg 2 0 with status := MsgStatus.complete } : Message).id 7).1
        = none
      ∧ ∃ pid,
          (regenerateStep exChat
            ({ mkPendingMsg 2 0 with status := MsgStatus.complete } : Message).id 7).2.streaming
            = some (0, pid)
        ∧ (∃ c1, findSession
              (regenerateStep exChat
                ({ mkPendingMsg 2 0 with status := MsgStatus.complete } : Message).id 7).2.sessions 0
              = some c1
            ∧ c1.messages = [mkUserMsg 1 "hi" none 0] ++ [mkPendingMsg pid 7])
        ∧ ∀ cs, ∃ c2, findSession (completeStep (applyTicks
              (regenerateStep exChat
                ({ mkPendingMsg 2 0 with status := MsgStatus.complete } : Message).id 7).2 cs)).sessions 0
              = some c2
            ∧ c2.messages = [mkUserMsg 1 "hi" none 0]
                ++ [{ mkPendingMsg pid 7 with
                    text := joinAll cs, status := .complete }]) :=
  ⟨Reachable.next _ (Reachable.next _ Reachable.init), rfl, rfl, rfl, rfl,
   (regenerate_spec exChat (Reachable.next _ (Reachable.next _ Reachable.init))
      0 exSession rfl rfl 7).2 [mkUserMsg 1 "hi" none 0]
      { mkPendingMsg 2 0 with status := MsgStatus.complete } rfl rfl⟩

/-- C5: Modelled from the spec (§4.4): stopGeneration during a streaming run
keeps the partial text accumulated so far — after the increments of the run
have arrived, stopping succeeds and the assistant message holds exactly the
concatenation of the increments received, with status stopped and no error
flag. -/
theorem stop_preserves_text (st : ChatState) (h : Reachable st)
    (sid mid : Nat) (hs : st.streaming = some (sid, mid))
    (pm : Message) (hpm : pendingMsg st = some pm) (h0 : pm.text = "")
    (cs : List String) :
    (stopStep (applyTicks st cs)).1 = none
    ∧ ∃ m, findMsg (stopStep (applyTicks st cs)).2 sid mid = some m
        ∧ m.text = joinAll cs ∧ m.status = .stopped ∧ m.isError = false := by
  have hinv := Reachable_Inv h
  obtain ⟨c, init, pm', hfind, hmsg, hpmid, hpsender, hpstatus, hperr, hnotin⟩ :=
    pending_shape hinv hs
  have hpcalc : pendingMsg st = some pm' := by
    unfold pendingMsg
    rw [hs]
    show (match findSession st.sessions sid with
      | none => none
      | some s => s.messages.getLast?) = some pm'
    rw [hfind]
    show c.messages.getLast? = some pm'
    rw [hmsg]
    exact List.getLast?_concat _
  have hpe : pm = pm' := by
    rw [hpcalc] at hpm
    injection hpm with hpm
    exact hpm.symm
  have h0' : pm'.text = "" := by
    rw [← hpe]
    exact h0
  obtain ⟨hfst, c2, hf2, hm2⟩ := stop_run st hinv hs hfind hmsg hpmid cs
  refine ⟨hfst,
    { pm' with text := pm'.text ++ joinAll cs, status := .stopped }, ?_, ?_, rfl, hperr⟩
  · unfold findMsg
    rw [hf2]
    show c2.messages.find? (fun m => m.id == mid) = _
    rw [hm2]
    exact find?_id_last init _ mid hpmid hnotin
  · show pm'.text ++ joinAll cs = joinAll cs
    rw [h0']
    simp

theorem stop_preserves_text_witness :
    joinAll ["Hel", "lo wor", "ld"] = "Hello world"
    ∧ Reachable (stepState (.send "hi" none 0) initState)
    ∧ (stepState (.send "hi" none 0) initState).streaming = some (0, 2)
    ∧ pendingMsg (stepState (.send "hi" none 0) initState)
        = some (mkPendingMsg 2 0)
    ∧ (mkPendingMsg 2 0).text = ""
    ∧ ((stopStep (applyTicks (stepState (.send "hi" none 0) initState)
          ["Hel", "lo wor", "ld"])).1 = none
      ∧ ∃ m, findMsg (stopStep (applyTicks (stepState (.send "hi" none 0) initState)
            ["Hel", "lo wor", "ld"])).2 0 2 = some m
          ∧ m.text = joinAll ["Hel", "lo wor", "ld"]
          ∧ m.status = .stopped ∧ m.isError = false) :=
  ⟨by decide, Reachable.next _ Reachable.init, rfl, rfl, rfl,
   stop_preserves_text (stepState (.send "hi" none 0) initState)
     (Reachable.next (.send "hi" none 0) Reachable.init) 0 2 rfl
     (mkPendingMsg 2 0) rfl rfl ["Hel", "lo wor", "ld"]⟩

/-- C9: ChatBubble's handleSaveEdit dispatches onEdit with (message.id,
editedText) — the untrimmed edited text — if and only if the trimmed edited
text differs from the message's current text; otherwise nothing is dispatched;
in both branches edit mode is exited. -/
theorem handleSaveEdit_dispatch_iff (m : Message) (t : String) :
    ((handleSaveEdit m t).1 = some (m.id, t) ↔ t.trim ≠ m.text)
    ∧ ((handleSaveEdit m t).1 = none ↔ t.trim = m.text)
    ∧ (handleSaveEdit m t).2 = false := by
  refine ⟨?_, ?_, rfl⟩
  · constructor
    · intro h
      by_contra heq
      simp only [handleSaveEdit, ne_eq, heq, not_true_eq_false, if_false,
        reduceCtorEq] at h
    · intro h
      simp only [handleSaveEdit, ne_eq, h, not_false_eq_true, if_true]
  · constructor
    · intro h
      by_contra hne
      simp only [handleSaveEdit, ne_eq, hne, not_false_eq_true, if_true,
        reduceCtorEq] at h
    · intro h
      simp only [handleSaveEdit, ne_eq, h, not_true_eq_false, if_false]

/-- C10: the filtered session list of the history sidebar is a sublist of the
sessions list (hence preserves relative order), contains exactly the sessions
whose lowercased title contains the lowercased query as a substring, and for
the empty query equals the full sessions list. -/
theorem filteredSessions_spec (sessions : List Session) (q : String) :
    (filteredSessions sessions q).Sublist sessions
    ∧ (∀ s, s ∈ filteredSessions sessions q ↔
        s ∈ sessions ∧ lowerStr q <:+: lowerStr s.title)
    ∧ filteredSessions sessions "" = sessions := by
  refine ⟨List.filter_sublist _, ?_, ?_⟩
  · intro s
    simp [filteredSessions, List.mem_filter, titleMatches]
  · have hq : lowerStr "" = [] := rfl
    have : ∀ s ∈ sessions, titleMatches "" s = true := by
      intro s _
      simp [titleMatches, hq]
    simpa [filteredSessions] using List.filter_eq_self.mpr this

end Kite
